import Mathlib

/-!
Shallow embedding of the apicius-rs recipe pipeline (src/types.rs,
src/checks.rs, src/render/table.rs) and proofs about the claims of its
specification.

Modelling conventions:
* interned symbols (string_interner::DefaultSymbol) are natural numbers;
  the interner itself is presentation-only and is omitted from `State`;
* a Rust panic (BTreeMap indexing with a missing key, Option::unwrap on
  None, usize underflow, out-of-bounds Vec indexing) is modelled by the
  function returning `none`;
* recursion that Rust performs on the call stack is given explicit fuel;
  every wrapper supplies fuel that is proven (or chosen) large enough, so
  a `none` caused by fuel exhaustion never occurs on the inputs the
  theorems speak about;
* `BTreeMap<Option<Symbol>, Vec<Path>>` is an association list: the only
  whole-map iteration in the source is debug printing, so the key order
  of the BTreeMap is never observable in the embedded code.
-/

namespace Apicius

/-- Interned symbol handle (string_interner::DefaultSymbol). -/
abbrev Sym := Nat

/-- types.rs `Loc<T>`: a value together with its source span. -/
structure Loc (α : Type) where
  l : Nat
  r : Nat
  value : α
deriving DecidableEq, Repr

/-- types.rs `StringRef = Loc<DefaultSymbol>`. -/
abbrev StringRef := Loc Sym

/-- types.rs `IngredientRef`: index into the packed ingredient array. -/
structure IngredientRef where
  idx : Nat
deriving DecidableEq, Repr

/-- types.rs `ActionStep`. -/
structure ActionStep where
  action : StringRef
  seasonings : List IngredientRef
deriving DecidableEq, Repr

/-- types.rs `Input`. -/
inductive Input where
  | ingredients (list : List IngredientRef)
  | join (point : StringRef)
deriving DecidableEq, Repr

/-- types.rs `Action`. -/
inductive Action where
  | action (step : ActionStep)
  | join (point : StringRef)
  | done
deriving DecidableEq, Repr

/-- types.rs `Rule`. -/
structure Rule where
  input : Input
  actions : List Action
deriving DecidableEq, Repr

/-- types.rs `RuleRef`: index into the packed rule array. -/
structure RuleRef where
  idx : Nat
deriving DecidableEq, Repr

/-- types.rs `Ingredient`. -/
structure Ingredient where
  amount : Option StringRef
  stuff : StringRef
deriving DecidableEq, Repr

/-- types.rs `Recipe`. -/
structure Recipe where
  name : StringRef
  rules : List RuleRef
deriving DecidableEq, Repr

/-- types.rs `State` (packed arrays; the string interner is omitted,
symbols being already plain numbers here). -/
structure State where
  ingredients : List Ingredient
  rules : List Rule
deriving DecidableEq, Repr

/-- checks.rs `Path`: one contiguous segment of a rule's chain. -/
structure Path where
  actions : List ActionStep
  start : Input
deriving DecidableEq, Repr

/-- checks.rs `Problem`. -/
inductive Problem where
  | noDone
  | danglingSteps (actions : List ActionStep) (start : Input)
  | hasCycle (sym : Sym)
deriving DecidableEq, Repr

/-- The map component of checks.rs `Analysis`
(`BTreeMap<Option<DefaultSymbol>, Vec<Path>>`), as an association list. -/
abbrev AnalysisMap := List (Option Sym × List Path)

/-- checks.rs `Analysis`. -/
structure Analysis where
  map : AnalysisMap
  problems : List Problem
deriving DecidableEq, Repr

/-- checks.rs `BackwardTree`. -/
inductive BackwardTree where
  | mk (actions : List ActionStep) (paths : List BackwardTree)
       (ingredients : List IngredientRef) (size : Nat) (max_depth : Nat)

instance decEqNilBackwardTreeList (l : List BackwardTree) : Decidable (l = []) :=
  match l with
  | [] => .isTrue rfl
  | _ :: _ => .isFalse nofun

def BackwardTree.actions : BackwardTree → List ActionStep
  | .mk a _ _ _ _ => a

def BackwardTree.paths : BackwardTree → List BackwardTree
  | .mk _ p _ _ _ => p

def BackwardTree.ingredients : BackwardTree → List IngredientRef
  | .mk _ _ i _ _ => i

def BackwardTree.size : BackwardTree → Nat
  | .mk _ _ _ s _ => s

def BackwardTree.max_depth : BackwardTree → Nat
  | .mk _ _ _ _ d => d

mutual

/-- Structural weight of a tree, used as recursion fuel for the layout. -/
def treeWeight : BackwardTree → Nat
  | .mk _ p _ _ _ => 1 + treeWeightL p

/-- Structural weight of a list of trees. -/
def treeWeightL : List BackwardTree → Nat
  | [] => 0
  | t :: ts => treeWeight t + treeWeightL ts

end

/-- `BTreeMap::entry(key).or_insert_with(Vec::new).push(value)`:
append `v` to the entry of `k`, creating the entry if absent. -/
def mapAdd : AnalysisMap → Option Sym → Path → AnalysisMap
  | [], k, v => [(k, [v])]
  | (k0, vs) :: rest, k, v =>
    if k = k0 then (k0, vs ++ [v]) :: rest else (k0, vs) :: mapAdd rest k v

/-- `BTreeMap::get` / `contains_key`. -/
def mapLookup : AnalysisMap → Option Sym → Option (List Path)
  | [], _ => none
  | (k0, vs) :: rest, k => if k = k0 then some vs else mapLookup rest k

/-- `BTreeMap::remove`, returning the removed entry and the rest. -/
def mapRemove : AnalysisMap → Option Sym → Option (List Path × AnalysisMap)
  | [], _ => none
  | (k0, vs) :: rest, k =>
    if k = k0 then some (vs, rest)
    else
      match mapRemove rest k with
      | none => none
      | some (e, m) => some (e, (k0, vs) :: m)

/-- checks.rs `Analysis::add` (the key's `Loc` wrapper is dropped via
`key.map(|x| *x)`). -/
def Analysis.add (an : Analysis) (key : Option StringRef) (value : Path) : Analysis :=
  { an with map := mapAdd an.map (key.map (·.value)) value }

/-- The inner loop of checks.rs `Analysis::from_recipe` over one rule's
action list, with the rule's `continue 'outer` at `Done`. -/
def processRule (an : Analysis) (path : Path) : List Action → Analysis
  | [] =>
    if path.actions = [] then an
    else { an with problems := an.problems ++ [.danglingSteps path.actions path.start] }
  | .action step :: rest =>
    processRule an { path with actions := path.actions ++ [step] } rest
  | .join point :: rest =>
    processRule (an.add (some point) path) { actions := [], start := .join point } rest
  | .done :: _ => an.add none path

/-- The rule loop of `Analysis::from_recipe`; `none` models the panic of
`&state[*rule]` on an invalid rule index. -/
def buildRules (st : State) : Analysis → List RuleRef → Option Analysis
  | an, [] => some an
  | an, r :: rs =>
    match st.rules.get? r.idx with
    | none => none
    | some rule =>
      buildRules st (processRule an { actions := [], start := rule.input } rule.actions) rs

/-- The map/problem construction phase of `Analysis::from_recipe`
(everything before the `contains_key(&None)` check). -/
def buildAnalysis (st : State) (r : Recipe) : Option Analysis :=
  buildRules st { map := [], problems := [] } r.rules

/-- The join points referenced by the `start`s of a path list, in order. -/
def joinStarts : List Path → List Sym :=
  List.filterMap fun p =>
    match p.start with
    | .join point => some point.value
    | _ => none

/-- Join points pushed on the frontier from the sink entry. -/
def rootsOf (m : AnalysisMap) : List Sym :=
  joinStarts ((mapLookup m none).getD [])

/-- Join points pushed on the frontier when visiting `x`. -/
def succList (m : AnalysisMap) (x : Sym) : List Sym :=
  joinStarts ((mapLookup m (some x)).getD [])

/-- Outcome of the `find_cycles` DFS loop. -/
inductive CycRes where
  | noFuel
  | missing
  | found (s : Sym)
  | ok
deriving DecidableEq, Repr

/-- The `while let Some(elem) = frontier.pop()` loop of
checks.rs `Analysis::find_cycles`. The frontier is a stack with its top
at the head, so pushing a list of successors in order prepends its
reverse. `missing` models the panic of `self.map[&Some(elem)]` on an
absent key. -/
def cycleLoop (m : AnalysisMap) : Nat → List Sym → List Sym → CycRes
  | 0, _, _ => .noFuel
  | _ + 1, [], _ => .ok
  | fuel + 1, x :: fr, seen =>
    if x ∈ seen then .found x
    else
      match mapLookup m (some x) with
      | none => .missing
      | some e => cycleLoop m fuel ((joinStarts e).reverse ++ fr) (seen ++ [x])

/-- Fuel budget for `cycleLoop`: join references in entries whose key is
not yet seen. -/
def budget (m : AnalysisMap) (seen : List Sym) : Nat :=
  (m.map fun e =>
    match e.1 with
    | some z => if z ∈ seen then 0 else (joinStarts e.2).length
    | none => 0).sum

/-- checks.rs `Analysis::find_cycles` (caller guarantees the `None` key
is present). `none` models the in-loop panic. -/
def find_cycles (an : Analysis) : Option Analysis :=
  let fr := (rootsOf an.map).reverse
  match cycleLoop an.map (fr.length + budget an.map [] + 1) fr [] with
  | .noFuel => none
  | .missing => none
  | .found s => some { an with problems := an.problems ++ [.hasCycle s] }
  | .ok => some an

/-- checks.rs `Analysis::from_recipe`. `none` models a panic. -/
def from_recipe (st : State) (r : Recipe) : Option Analysis :=
  match buildAnalysis st r with
  | none => none
  | some an =>
    if mapLookup an.map none = none
    then some { an with problems := an.problems ++ [.noDone] }
    else find_cycles an

/-- Total `vs.length + 1` over all entries; used as recursion fuel for
the tree materializer. -/
def totalWeight (m : AnalysisMap) : Nat :=
  (m.map fun e => e.2.length + 1).sum

/-- checks.rs `Analysis::convert_tree_helper` mapped over a path list,
threading the (destructively drained) map and accumulating
`(children, size, max_depth)` exactly as the Rust code does.
`none` models the `.unwrap()` panic on a missing join key. -/
def convStep : Nat → AnalysisMap → List Path → Option (AnalysisMap × List BackwardTree × Nat × Nat)
  | 0, _, _ => none
  | _ + 1, m, [] => some (m, [], 0, 0)
  | fuel + 1, m, p :: rest =>
    match
      (match p.start with
       | Input.ingredients list =>
         some (m, BackwardTree.mk p.actions [] list list.length p.actions.length)
       | Input.join point =>
         match mapRemove m (some point.value) with
         | none => none
         | some (e, m1) =>
           match convStep fuel m1 e with
           | none => none
           | some (m2, children, s, d) =>
             some (m2, BackwardTree.mk p.actions children [] s (d + p.actions.length)))
    with
    | none => none
    | some (m3, node) =>
      match convStep fuel m3 rest with
      | none => none
      | some (m4, nodes, s2, d2) =>
        some (m4, node :: nodes, node.size + s2, max node.max_depth d2)

/-- checks.rs `Analysis::into_tree`. `none` models a panic inside the
conversion; a non-empty problem list is returned as `Except.error`
before anything is built. -/
def into_tree (an : Analysis) : Option (Except (List Problem) BackwardTree) :=
  if an.problems ≠ [] then some (Except.error an.problems)
  else
    match mapRemove an.map none with
    | none => none
    | some (paths, m) =>
      match convStep (totalWeight m + paths.length + 1) m paths with
      | none => none
      | some (_, nodes, s, d) => some (Except.ok (BackwardTree.mk [] nodes [] s d))

/-- render/table.rs `CellData` (string resolution through the interner
is presentation-only and kept symbolic). -/
inductive CellData where
  | ingredient (i : IngredientRef)
  | step (s : ActionStep)
  | done
deriving DecidableEq, Repr

/-- render/table.rs `Cell`. -/
structure Cell where
  rowspan : Nat
  colspan : Nat
  contents : CellData
deriving DecidableEq, Repr

abbrev Row := List Cell
abbrev Grid := List Row

/-- render/table.rs `TableGenerator::to_table`, mapped over a list of
trees (the head is the focused tree, processed with the given depth; the
tail gives the sibling recursion its structural fuel). `none` models the
usize-underflow panic of `depth - focus.actions.len()` and the `vec[0]`
panic on an empty row vector. -/
def tableGo : Nat → List BackwardTree → Nat → Option (List Grid)
  | 0, _, _ => none
  | _ + 1, [], _ => some []
  | fuel + 1, t :: ts, depth =>
    let a := t.actions.length
    let res : Option Grid :=
      if t.ingredients ≠ [] ∧ depth < a then none
      else
        let ingRows : Grid :=
          t.ingredients.map fun i => [⟨1, depth - a + 1, CellData.ingredient i⟩]
        if t.paths = [] then
          if t.actions = [] then some ingRows
          else if ingRows = [] then none
          else some (ingRows.modifyHead (· ++ t.actions.map fun s => ⟨t.size, 1, CellData.step s⟩))
        else
          if depth < a then none
          else
            match tableGo fuel t.paths (depth - a) with
            | none => none
            | some blocks =>
              let extra : Row :=
                if t.actions = [] ∧ t.ingredients = [] then [⟨t.size, 1, CellData.done⟩]
                else t.actions.map fun s => ⟨t.size, 1, CellData.step s⟩
              some (ingRows ++ (blocks.flatten.modifyHead (· ++ extra)))
    match res with
    | none => none
    | some g =>
      match tableGo fuel ts depth with
      | none => none
      | some gs => some (g :: gs)

/-- render/table.rs `TableGenerator::to_table` on one tree. -/
def to_table (t : BackwardTree) (depth : Nat) : Option Grid :=
  match tableGo (treeWeight t + 1) [t] depth with
  | some gs => some gs.flatten
  | none => none

/-- render/table.rs `Table::new`: lay out a tree at `depth = bt.max_depth`. -/
def Table.new (bt : BackwardTree) : Option Grid :=
  to_table bt bt.max_depth

/-! ## Specification-side notions used by the claims -/

/-- Sum of the `size` fields of a list of trees. -/
def sumSizes (cs : List BackwardTree) : Nat :=
  (cs.map BackwardTree.size).sum

/-- Maximum of the `max_depth` fields of a list of trees (0 if empty). -/
def maxMd (cs : List BackwardTree) : Nat :=
  cs.foldr (fun c acc => max c.max_depth acc) 0

/-- The per-node metric invariant of `BackwardTree` (claim C7): `size` is
the ingredient count for a childless node and the sum of the children's
sizes otherwise, and `max_depth` is the node's own action count plus the
maximum of the children's `max_depth` (0 with no children). -/
inductive TreeInv : BackwardTree → Prop where
  | mk : ∀ (a : List ActionStep) (cs : List BackwardTree) (ing : List IngredientRef) (s d : Nat),
      (∀ c ∈ cs, TreeInv c) →
      s = (if cs = [] then ing.length else sumSizes cs) →
      d = a.length + maxMd cs →
      TreeInv (.mk a cs ing s d)

/-- `TreeInv` plus: every childless node carries at least one ingredient
(the parser's guarantee transported through the materializer). -/
inductive WFT : BackwardTree → Prop where
  | mk : ∀ (a : List ActionStep) (cs : List BackwardTree) (ing : List IngredientRef) (s d : Nat),
      (∀ c ∈ cs, WFT c) →
      (cs = [] → ing ≠ []) →
      s = (if cs = [] then ing.length else sumSizes cs) →
      d = a.length + maxMd cs →
      WFT (.mk a cs ing s d)

/-- `WFT` plus: every node with children has no ingredients of its own
and a non-empty action chain. Trees produced by `into_tree` satisfy this
below the root whenever no join-started path segment has an empty action
list. -/
inductive WFR : BackwardTree → Prop where
  | mk : ∀ (a : List ActionStep) (cs : List BackwardTree) (ing : List IngredientRef) (s d : Nat),
      (∀ c ∈ cs, WFR c) →
      (cs = [] → ing ≠ []) →
      (cs ≠ [] → ing = [] ∧ a ≠ []) →
      s = (if cs = [] then ing.length else sumSizes cs) →
      d = a.length + maxMd cs →
      WFR (.mk a cs ing s d)

mutual

/-- Total number of ingredient references on the leaves of a tree. -/
inductive LeafSum : BackwardTree → Nat → Prop where
  | leaf : ∀ a ing s d, LeafSum (.mk a [] ing s d) ing.length
  | node : ∀ a c cs ing s d n, LeafSumL (c :: cs) n → LeafSum (.mk a (c :: cs) ing s d) n

/-- `LeafSum` summed over a list of trees. -/
inductive LeafSumL : List BackwardTree → Nat → Prop where
  | nil : LeafSumL [] 0
  | cons : ∀ t ts n m, LeafSum t n → LeafSumL ts m → LeafSumL (t :: ts) (n + m)

end

/-- The join-reference edge relation of an analysis map: `x` references
`y` when some path stored under `Some x` starts at join point `y`. -/
def Rel (m : AnalysisMap) (x y : Sym) : Prop :=
  y ∈ succList m x

/-- A join point reachable from the sink entry through join references. -/
def ReachableFromSink (m : AnalysisMap) (x : Sym) : Prop :=
  ∃ r ∈ rootsOf m, Relation.ReflTransGen (Rel m) r x

/-- The map contains a genuine reference cycle among join points
reachable from the sink. -/
def CycleReachable (m : AnalysisMap) : Prop :=
  ∃ x, ReachableFromSink m x ∧ Relation.TransGen (Rel m) x x

/-- Every join point reachable from the sink has an entry in the map
(i.e. is fed by at least one rule). -/
def KeysPresent (m : AnalysisMap) : Prop :=
  ∀ x, ReachableFromSink m x → mapLookup m (some x) ≠ none

/-- A topologically ordered list of join points: each element has an
entry, is not repeated, and all its references point strictly later in
the list. Produced by a cycle-free run of the `find_cycles` DFS. -/
def GoodExt (m : AnalysisMap) : List Sym → Prop
  | [] => True
  | z :: rest =>
    z ∉ rest ∧ mapLookup m (some z) ≠ none ∧ (∀ y ∈ succList m z, y ∈ rest) ∧ GoodExt m rest

/-- Number of references to `z` from the entries of the join points
listed in `ext`. -/
def refsExt (m : AnalysisMap) (ext : List Sym) (z : Sym) : Nat :=
  (ext.map fun y => (succList m y).count z).sum

/-- Every path satisfies `P` in every entry of the map. -/
def MapPathsOk (P : Path → Prop) (m : AnalysisMap) : Prop :=
  ∀ e ∈ m, ∀ p ∈ e.2, P p

/-- An ingredient-started path segment has a non-empty ingredient list
(parser guarantee). -/
def PathIngOk (p : Path) : Prop :=
  match p.start with
  | .ingredients l => l ≠ []
  | .join _ => True

/-- A join-started path segment has a non-empty action chain. -/
def PathActOk (p : Path) : Prop :=
  match p.start with
  | .ingredients _ => True
  | .join _ => p.actions ≠ []

/-- Every map entry holds at least one path. -/
def EntriesNonempty (m : AnalysisMap) : Prop :=
  ∀ e ∈ m, e.2 ≠ []

/-- Parser guarantee on a recipe: every rule input that is an ingredient
list is non-empty. -/
def RecipeIngOk (st : State) (r : Recipe) : Prop :=
  ∀ rr ∈ r.rules, ∀ rule, st.rules.get? rr.idx = some rule →
    ∀ l, rule.input = Input.ingredients l → l ≠ []

/-- Spec-side count (following the spec's words, for comparison with the
code): the number of ingredient-led path segments of a recipe, i.e. the
rules whose input is an ingredient list — every other segment of a rule
chain starts at a join point. -/
def specIngredientLedPathCount (st : State) (r : Recipe) : Nat :=
  ((r.rules.filterMap fun rr => st.rules.get? rr.idx).filter fun rule =>
    match rule.input with
    | .ingredients _ => true
    | .join _ => false).length

/-- Total colspan of the cells a row owns. -/
def rowWidth (r : Row) : Nat :=
  (r.map (·.colspan)).sum

/-- Total colspan of the cells of a row that still cover a row `dist`
rows further down (a cell covers `rowspan` consecutive rows). -/
def coverFrom (r : Row) (dist : Nat) : Nat :=
  ((r.filter fun c => decide (dist < c.rowspan)).map (·.colspan)).sum

/-- Columns of row `i` of a grid covered by row-spanning cells of
earlier rows. -/
def coverInto : Grid → Nat → Nat
  | _, 0 => 0
  | [], _ + 1 => 0
  | r :: rest, i + 1 => coverFrom r (i + 1) + coverInto rest i

/-- Effective column occupancy of row `i`: the colspans of its own cells
plus the columns covered by row-spanning cells of earlier rows. -/
def effOcc (g : Grid) (i : Nat) : Nat :=
  rowWidth (g.getD i []) + coverInto g i

/-- No cell's rowspan reaches past the end of the grid. -/
def containedGrid (g : Grid) : Prop :=
  ∀ j < g.length, ∀ c ∈ g.getD j [], j + c.rowspan ≤ g.length

/-! ## Concrete inputs used by witnesses and counterexamples -/

/-- A located symbol with a dummy span. -/
def sref (n : Nat) : StringRef := ⟨0, 0, n⟩

/-- An action step with no seasonings. -/
def astep (n : Nat) : ActionStep := ⟨sref n, []⟩

/-- C1 failing input, store: one rule `$a -> <>` (join point 0 is
referenced but never fed). -/
def stC1 : State := ⟨[], [⟨.join (sref 0), [.done]⟩]⟩

/-- C1 failing input, recipe. -/
def rC1 : Recipe := ⟨sref 99, [⟨0⟩]⟩

/-- Store for `a -> step1 -> $j; b -> step2 -> $j; $j -> step3 -> <>`
(the spec's concrete scenario; join point is symbol 5). -/
def stJ : State :=
  ⟨[⟨none, sref 1⟩, ⟨none, sref 2⟩],
   [⟨.ingredients [⟨0⟩], [.action (astep 10), .join (sref 5)]⟩,
    ⟨.ingredients [⟨1⟩], [.action (astep 11), .join (sref 5)]⟩,
    ⟨.join (sref 5), [.action (astep 12), .done]⟩]⟩

/-- Recipe for `stJ`. -/
def rJ : Recipe := ⟨sref 98, [⟨0⟩, ⟨1⟩, ⟨2⟩]⟩

/-- Store for the acyclic diamond `a -> f -> $x; $x -> g -> <>;
$x -> h -> <>` (join point is symbol 3). -/
def stD : State :=
  ⟨[⟨none, sref 1⟩],
   [⟨.ingredients [⟨0⟩], [.action (astep 10), .join (sref 3)]⟩,
    ⟨.join (sref 3), [.action (astep 11), .done]⟩,
    ⟨.join (sref 3), [.action (astep 12), .done]⟩]⟩

/-- Recipe for `stD`. -/
def rD : Recipe := ⟨sref 97, [⟨0⟩, ⟨1⟩, ⟨2⟩]⟩

/-- Store for `$a -> f -> $a; $a -> g -> <>; $c -> h -> <>`: a genuine
reachable self-cycle on join point 0 together with a dangling reference
to the never-fed join point 2. -/
def stCy : State :=
  ⟨[],
   [⟨.join (sref 0), [.action (astep 10), .join (sref 0)]⟩,
    ⟨.join (sref 0), [.action (astep 11), .done]⟩,
    ⟨.join (sref 2), [.action (astep 12), .done]⟩]⟩

/-- Recipe for `stCy`. -/
def rCy : Recipe := ⟨sref 96, [⟨0⟩, ⟨1⟩, ⟨2⟩]⟩

/-- Store for `x -> f -> $a; $a -> g -> $a; $a -> h -> <>`: a genuine
reachable self-cycle on join point 0 with every reachable join point
fed. -/
def stCw : State :=
  ⟨[⟨none, sref 1⟩],
   [⟨.ingredients [⟨0⟩], [.action (astep 10), .join (sref 0)]⟩,
    ⟨.join (sref 0), [.action (astep 11), .join (sref 0)]⟩,
    ⟨.join (sref 0), [.action (astep 12), .done]⟩]⟩

/-- Recipe for `stCw`. -/
def rCw : Recipe := ⟨sref 95, [⟨0⟩, ⟨1⟩, ⟨2⟩]⟩

/-- Store for `a + b -> f -> <>`: a single rule whose leaf carries two
ingredients. -/
def stAB : State :=
  ⟨[⟨none, sref 1⟩, ⟨none, sref 2⟩],
   [⟨.ingredients [⟨0⟩, ⟨1⟩], [.action (astep 10), .done]⟩]⟩

/-- Recipe for `stAB`. -/
def rAB : Recipe := ⟨sref 94, [⟨0⟩]⟩

/-- Store for the one-rule recipe `a -> f -> <>`. -/
def stA : State :=
  ⟨[⟨none, sref 1⟩], [⟨.ingredients [⟨0⟩], [.action (astep 10), .done]⟩]⟩

/-- Recipe for `stA`. -/
def rA : Recipe := ⟨sref 93, [⟨0⟩]⟩

/-- The analysis of `stA`/`rA`. -/
def anA : Analysis := ⟨[(none, [⟨[astep 10], .ingredients [⟨0⟩]⟩])], []⟩

/-- The tree materialized from `anA`. -/
def treeA : BackwardTree := .mk [] [.mk [astep 10] [] [⟨0⟩] 1 1] [] 1 1

/-- The grid laid out from `treeA`. -/
def gridA : Grid := [[⟨1, 1, .ingredient ⟨0⟩⟩, ⟨1, 1, .step (astep 10)⟩, ⟨1, 1, .done⟩]]

/-- The analysis of `stJ`/`rJ`. -/
def anJ : Analysis :=
  ⟨[(some 5, [⟨[astep 10], .ingredients [⟨0⟩]⟩, ⟨[astep 11], .ingredients [⟨1⟩]⟩]),
    (none, [⟨[astep 12], .join (sref 5)⟩])], []⟩

/-- The tree materialized from `anJ`. -/
def treeJ : BackwardTree :=
  .mk [] [.mk [astep 12] [.mk [astep 10] [] [⟨0⟩] 1 1, .mk [astep 11] [] [⟨1⟩] 1 1] [] 2 2]
    [] 2 2

/-- The analysis of the diamond `stD`/`rD` (note the spurious cycle
report). -/
def anD : Analysis :=
  ⟨[(some 3, [⟨[astep 10], .ingredients [⟨0⟩]⟩]),
    (none, [⟨[astep 11], .join (sref 3)⟩, ⟨[astep 12], .join (sref 3)⟩])], [.hasCycle 3]⟩

/-- The map-construction phase output for `stCy`/`rCy`. -/
def anCy : Analysis :=
  ⟨[(some 0, [⟨[astep 10], .join (sref 0)⟩]),
    (none, [⟨[astep 11], .join (sref 0)⟩, ⟨[astep 12], .join (sref 2)⟩])], []⟩

/-- The map-construction phase output for `stCw`/`rCw`. -/
def anCw : Analysis :=
  ⟨[(some 0, [⟨[astep 10], .ingredients [⟨0⟩]⟩, ⟨[astep 11], .join (sref 0)⟩]),
    (none, [⟨[astep 12], .join (sref 0)⟩])], []⟩

/-- The analysis of `stAB`/`rAB`. -/
def anAB : Analysis := ⟨[(none, [⟨[astep 10], .ingredients [⟨0⟩, ⟨1⟩]⟩])], []⟩

/-- The tree materialized from `anAB`: one leaf carrying two
ingredients. -/
def treeAB : BackwardTree := .mk [] [.mk [astep 10] [] [⟨0⟩, ⟨1⟩] 2 1] [] 2 1

/-- The grid laid out from `treeAB`: the leaf's action cell spans both
ingredient rows. -/
def gridAB : Grid :=
  [[⟨1, 1, .ingredient ⟨0⟩⟩, ⟨2, 1, .step (astep 10)⟩, ⟨2, 1, .done⟩],
   [⟨1, 1, .ingredient ⟨1⟩⟩]]

/-- The two-ingredient leaf of `treeAB` on its own. -/
def leafAB : BackwardTree := .mk [astep 10] [] [⟨0⟩, ⟨1⟩] 2 1

/-- The grid laid out from the leaf `leafAB` at depth 1. -/
def gridLeafAB : Grid :=
  [[⟨1, 1, .ingredient ⟨0⟩⟩, ⟨2, 1, .step (astep 10)⟩], [⟨1, 1, .ingredient ⟨1⟩⟩]]

/-! ## Basic lemmas about the association-list map -/

theorem mapRemove_lookup {m : AnalysisMap} {k : Option Sym} {e : List Path} {m' : AnalysisMap}
    (h : mapRemove m k = some (e, m')) : mapLookup m k = some e := by
  induction m generalizing e m' with
  | nil => simp [mapRemove] at h
  | cons hd tl ih =>
    obtain ⟨k0, vs⟩ := hd
    simp only [mapRemove, mapLookup] at h ⊢
    by_cases hk : k = k0
    · simp only [if_pos hk] at h ⊢
      obtain ⟨hv, -⟩ := Prod.mk.injEq .. ▸ Option.some.inj h
      rw [hv]
    · simp only [if_neg hk] at h ⊢
      cases hrec : mapRemove tl k with
      | none => rw [hrec] at h; exact absurd h (by simp)
      | some p =>
        obtain ⟨e1, m1⟩ := p
        rw [hrec] at h
        obtain ⟨he, -⟩ := Prod.mk.injEq .. ▸ Option.some.inj h
        subst he
        exact ih hrec

theorem lookup_remove {m : AnalysisMap} {k : Option Sym} {e : List Path}
    (h : mapLookup m k = some e) : ∃ m', mapRemove m k = some (e, m') := by
  induction m with
  | nil => simp [mapLookup] at h
  | cons hd tl ih =>
    obtain ⟨k0, vs⟩ := hd
    simp only [mapLookup, mapRemove] at h ⊢
    by_cases hk : k = k0
    · simp only [if_pos hk] at h ⊢
      exact ⟨tl, by rw [Option.some.inj h]⟩
    · simp only [if_neg hk] at h ⊢
      obtain ⟨m', hm'⟩ := ih h
      exact ⟨(k0, vs) :: m', by rw [hm']⟩

theorem mapRemove_lookup_other {m : AnalysisMap} {k : Option Sym} {e : List Path} {m' : AnalysisMap}
    (h : mapRemove m k = some (e, m')) :
    ∀ k', k' ≠ k → mapLookup m' k' = mapLookup m k' := by
  induction m generalizing e m' with
  | nil => simp [mapRemove] at h
  | cons hd tl ih =>
    obtain ⟨k0, vs⟩ := hd
    intro k' hk'
    simp only [mapRemove] at h
    by_cases hk : k = k0
    · simp only [if_pos hk] at h
      obtain ⟨-, hm⟩ := Prod.mk.injEq .. ▸ Option.some.inj h
      subst hm
      simp only [mapLookup, if_neg (hk ▸ hk')]
    · simp only [if_neg hk] at h
      cases hrec : mapRemove tl k with
      | none => rw [hrec] at h; exact absurd h (by simp)
      | some p =>
        obtain ⟨e1, m1⟩ := p
        rw [hrec] at h
        obtain ⟨he, hm⟩ := Prod.mk.injEq .. ▸ Option.some.inj h
        subst hm; subst he
        by_cases hk0 : k' = k0
        · simp [mapLookup, hk0]
        · simp only [mapLookup, if_neg hk0]
          exact ih hrec k' hk'

theorem mapRemove_weight {m : AnalysisMap} {k : Option Sym} {e : List Path} {m' : AnalysisMap}
    (h : mapRemove m k = some (e, m')) :
    totalWeight m = totalWeight m' + e.length + 1 := by
  induction m generalizing e m' with
  | nil => simp [mapRemove] at h
  | cons hd tl ih =>
    obtain ⟨k0, vs⟩ := hd
    simp only [mapRemove] at h
    by_cases hk : k = k0
    · simp only [if_pos hk] at h
      obtain ⟨he, hm⟩ := Prod.mk.injEq .. ▸ Option.some.inj h
      subst hm; subst he
      simp [totalWeight]; omega
    · simp only [if_neg hk] at h
      cases hrec : mapRemove tl k with
      | none => rw [hrec] at h; exact absurd h (by simp)
      | some p =>
        obtain ⟨e1, m1⟩ := p
        rw [hrec] at h
        obtain ⟨he, hm⟩ := Prod.mk.injEq .. ▸ Option.some.inj h
        subst hm; subst he
        simp only [totalWeight, List.map_cons, List.sum_cons] at *
        have := ih hrec
        simp only [totalWeight] at this
        omega

theorem mapRemove_mem {m : AnalysisMap} {k : Option Sym} {e : List Path} {m' : AnalysisMap}
    (h : mapRemove m k = some (e, m')) : ∀ x ∈ m', x ∈ m := by
  induction m generalizing e m' with
  | nil => simp [mapRemove] at h
  | cons hd tl ih =>
    obtain ⟨k0, vs⟩ := hd
    simp only [mapRemove] at h
    by_cases hk : k = k0
    · simp only [if_pos hk] at h
      obtain ⟨-, hm⟩ := Prod.mk.injEq .. ▸ Option.some.inj h
      subst hm
      intro x hx; exact List.mem_cons_of_mem _ hx
    · simp only [if_neg hk] at h
      cases hrec : mapRemove tl k with
      | none => rw [hrec] at h; exact absurd h (by simp)
      | some p =>
        obtain ⟨e1, m1⟩ := p
        rw [hrec] at h
        obtain ⟨he, hm⟩ := Prod.mk.injEq .. ▸ Option.some.inj h
        subst hm; subst he
        intro x hx
        rcases List.mem_cons.mp hx with h1 | h1
        · exact h1 ▸ List.mem_cons_self _ _
        · exact List.mem_cons_of_mem _ (ih hrec x h1)

theorem mapRemove_self_mem {m : AnalysisMap} {k : Option Sym} {e : List Path} {m' : AnalysisMap}
    (h : mapRemove m k = some (e, m')) : (k, e) ∈ m := by
  induction m generalizing e m' with
  | nil => simp [mapRemove] at h
  | cons hd tl ih =>
    obtain ⟨k0, vs⟩ := hd
    simp only [mapRemove] at h
    by_cases hk : k = k0
    · simp only [if_pos hk] at h
      obtain ⟨he, -⟩ := Prod.mk.injEq .. ▸ Option.some.inj h
      subst he; subst hk
      exact List.mem_cons_self _ _
    · simp only [if_neg hk] at h
      cases hrec : mapRemove tl k with
      | none => rw [hrec] at h; exact absurd h (by simp)
      | some p =>
        obtain ⟨e1, m1⟩ := p
        rw [hrec] at h
        obtain ⟨he, -⟩ := Prod.mk.injEq .. ▸ Option.some.inj h
        subst he
        exact List.mem_cons_of_mem _ (ih hrec)

/-! ## Structural properties of the tree materializer -/

theorem convStep_inv :
    ∀ (fuel : Nat) (m : AnalysisMap) (ps : List Path) (m' : AnalysisMap)
      (nodes : List BackwardTree) (s d : Nat),
      convStep fuel m ps = some (m', nodes, s, d) →
      (∀ n ∈ nodes, TreeInv n) ∧ s = sumSizes nodes ∧ d = maxMd nodes ∧
        nodes.length = ps.length := by
  intro fuel
  induction fuel with
  | zero => intro m ps m' nodes s d h; simp [convStep] at h
  | succ fuel ih =>
    intro m ps m' nodes s d h
    cases ps with
    | nil =>
      simp only [convStep, Option.some.injEq, Prod.mk.injEq] at h
      obtain ⟨-, hn, hs, hd⟩ := h
      subst hn; subst hs; subst hd
      simp [sumSizes, maxMd]
    | cons p rest =>
      cases hst : p.start with
      | ingredients list =>
        simp only [convStep, hst] at h
        cases hrest : convStep fuel m rest with
        | none => simp only [hrest] at h; exact absurd h (by simp)
        | some q =>
          obtain ⟨m4, nodes2, s2, d2⟩ := q
          simp only [hrest] at h
          simp only [Option.some.injEq, Prod.mk.injEq] at h
          obtain ⟨-, hn, hs, hd⟩ := h
          subst hn; subst hs; subst hd
          obtain ⟨ht2, hs2, hd2, hl2⟩ := ih m rest m4 nodes2 s2 d2 hrest
          refine ⟨?_, ?_, ?_, by simp [hl2]⟩
          · intro n hn
            rcases List.mem_cons.mp hn with h1 | h1
            · subst h1
              exact TreeInv.mk _ _ _ _ _ (by simp) (by simp) (by simp [maxMd])
            · exact ht2 n h1
          · simp [sumSizes, BackwardTree.size, hs2]
          · simp [maxMd, BackwardTree.max_depth, hd2]
      | join point =>
        simp only [convStep, hst] at h
        cases hrem : mapRemove m (some point.value) with
        | none => simp only [hrem] at h; exact absurd h (by simp)
        | some q =>
          obtain ⟨e, m1⟩ := q
          simp only [hrem] at h
          cases hconv : convStep fuel m1 e with
          | none => simp only [hconv] at h; exact absurd h (by simp)
          | some q2 =>
            obtain ⟨m2, children, cs, cd⟩ := q2
            simp only [hconv] at h
            cases hrest : convStep fuel m2 rest with
            | none => simp only [hrest] at h; exact absurd h (by simp)
            | some q3 =>
              obtain ⟨m4, nodes2, s2, d2⟩ := q3
              simp only [hrest] at h
              simp only [Option.some.injEq, Prod.mk.injEq] at h
              obtain ⟨-, hn, hs, hd⟩ := h
              subst hn; subst hs; subst hd
              obtain ⟨htc, hsc, hdc, -⟩ := ih m1 e m2 children cs cd hconv
              obtain ⟨ht2, hs2, hd2, hl2⟩ := ih m2 rest m4 nodes2 s2 d2 hrest
              refine ⟨?_, ?_, ?_, by simp [hl2]⟩
              · intro n hn
                rcases List.mem_cons.mp hn with h1 | h1
                · subst h1
                  refine TreeInv.mk _ _ _ _ _ htc ?_ (by rw [hdc]; omega)
                  cases children with
                  | nil => simp [hsc, sumSizes]
                  | cons c cs' => simp [hsc]
                · exact ht2 n h1
              · simp [sumSizes, BackwardTree.size, hs2]
              · simp [maxMd, BackwardTree.max_depth, hd2]

theorem leafSumL_of_forall :
    ∀ l : List BackwardTree, (∀ c ∈ l, LeafSum c c.size) → LeafSumL l (sumSizes l) := by
  intro l
  induction l with
  | nil => intro _; exact (by simpa [sumSizes] using LeafSumL.nil)
  | cons t ts ih =>
    intro hall
    have : sumSizes (t :: ts) = t.size + sumSizes ts := by simp [sumSizes]
    rw [this]
    exact LeafSumL.cons _ _ _ _ (hall t (List.mem_cons_self _ _))
      (ih fun c hc => hall c (List.mem_cons_of_mem _ hc))

theorem treeInv_leafSum {t : BackwardTree} (h : TreeInv t) : LeafSum t t.size := by
  induction h with
  | mk a cs ing s d hc hs hd ih =>
    cases cs with
    | nil =>
      simp only [if_pos rfl] at hs
      have : (BackwardTree.mk a [] ing s d).size = ing.length := by
        simp [BackwardTree.size, hs]
      rw [this]
      exact LeafSum.leaf a ing s d
    | cons c cs' =>
      have hs' : s = sumSizes (c :: cs') := by simpa using hs
      have : (BackwardTree.mk a (c :: cs') ing s d).size = sumSizes (c :: cs') := by
        simp [BackwardTree.size, hs']
      rw [this]
      exact LeafSum.node a c cs' ing s d _ (leafSumL_of_forall (c :: cs') ih)

theorem into_tree_ok_shape {an : Analysis} {t : BackwardTree}
    (h : into_tree an = some (Except.ok t)) :
    an.problems = [] ∧
      ∃ paths m mf nodes s d, mapRemove an.map none = some (paths, m) ∧
        convStep (totalWeight m + paths.length + 1) m paths = some (mf, nodes, s, d) ∧
        t = BackwardTree.mk [] nodes [] s d := by
  by_cases hp : an.problems = []
  · refine ⟨hp, ?_⟩
    simp only [into_tree, hp, ne_eq, not_true_eq_false, if_neg, ite_false,
      not_false_eq_true] at h
    cases hrem : mapRemove an.map none with
    | none => simp only [hrem] at h; exact Option.noConfusion h
    | some q =>
      obtain ⟨paths, m⟩ := q
      simp only [hrem] at h
      cases hconv : convStep (totalWeight m + paths.length + 1) m paths with
      | none => simp only [hconv] at h; exact Option.noConfusion h
      | some q2 =>
        obtain ⟨mf, nodes, s, d⟩ := q2
        simp only [hconv, Option.some.injEq, Except.ok.injEq] at h
        exact ⟨paths, m, mf, nodes, s, d, rfl, hconv, h.symm⟩
  · exfalso
    simp only [into_tree, if_pos hp, ne_eq, hp, not_false_eq_true, ite_true,
      Option.some.injEq] at h
    exact Except.noConfusion h

theorem into_tree_treeInv {an : Analysis} {t : BackwardTree}
    (h : into_tree an = some (Except.ok t)) : TreeInv t := by
  obtain ⟨-, paths, m, mf, nodes, s, d, -, hconv, ht⟩ := into_tree_ok_shape h
  obtain ⟨hti, hs, hd, -⟩ := convStep_inv _ _ _ _ _ _ _ hconv
  subst ht
  refine TreeInv.mk _ _ _ _ _ hti ?_ ?_
  · cases nodes with
    | nil => simp [hs, sumSizes]
    | cons c cs' => simp [hs]
  · simp [hd]

/-! ## The cycle-detection walk -/

theorem succList_of_lookup {m : AnalysisMap} {x : Sym} {e : List Path}
    (h : mapLookup m (some x) = some e) : succList m x = joinStarts e := by
  simp [succList, h]

theorem refsExt_cons (m : AnalysisMap) (x : Sym) (ext : List Sym) (z : Sym) :
    refsExt m (x :: ext) z = (succList m x).count z + refsExt m ext z := by
  simp [refsExt]

theorem goodExt_lookup {m : AnalysisMap} {ext : List Sym} (h : GoodExt m ext) :
    ∀ x ∈ ext, mapLookup m (some x) ≠ none := by
  induction ext with
  | nil => intro x hx; simp at hx
  | cons z rest ih =>
    obtain ⟨-, hl, -, hrest⟩ := h
    intro x hx
    rcases List.mem_cons.mp hx with h1 | h1
    · exact h1 ▸ hl
    · exact ih hrest x h1

theorem goodExt_closed {m : AnalysisMap} {ext : List Sym} (h : GoodExt m ext) :
    ∀ x ∈ ext, ∀ y, Rel m x y → y ∈ ext := by
  induction ext with
  | nil => intro x hx; simp at hx
  | cons z rest ih =>
    obtain ⟨-, -, hsucc, hrest⟩ := h
    intro x hx y hy
    rcases List.mem_cons.mp hx with h1 | h1
    · exact List.mem_cons_of_mem _ (hsucc y (h1 ▸ hy))
    · exact List.mem_cons_of_mem _ (ih hrest x h1 y hy)

theorem goodExt_reach {m : AnalysisMap} {ext : List Sym} (h : GoodExt m ext)
    {x y : Sym} (hx : x ∈ ext) (hr : Relation.ReflTransGen (Rel m) x y) : y ∈ ext := by
  induction hr with
  | refl => exact hx
  | tail _ hstep ih => exact goodExt_closed h _ ih _ hstep

theorem goodExt_acyclic {m : AnalysisMap} {ext : List Sym} (h : GoodExt m ext) :
    ∀ x ∈ ext, ¬ Relation.TransGen (Rel m) x x := by
  induction ext with
  | nil => intro x hx; simp at hx
  | cons z rest ih =>
    obtain ⟨hz, -, hsucc, hrest⟩ := h
    intro x hx htg
    rcases List.mem_cons.mp hx with h1 | h1
    · subst h1
      rcases (Relation.TransGen.head'_iff.mp htg) with ⟨c, hxc, hcx⟩
      have hc : c ∈ rest := hsucc c hxc
      exact hz (goodExt_reach hrest hc hcx)
    · exact ih hrest x h1 htg

/-- Master property of a cycle-free completed DFS run: the symbols it
visits form a topological order `ext` covering the frontier, and every
symbol is referenced at most once in total from the frontier and the
entries of `ext`. -/
theorem cycleLoop_ok :
    ∀ (fuel : Nat) (m : AnalysisMap) (F seen : List Sym),
      cycleLoop m fuel F seen = .ok →
      ∃ ext : List Sym,
        (∀ z ∈ ext, z ∉ seen) ∧ GoodExt m ext ∧ (∀ y ∈ F, y ∈ ext) ∧
        (∀ z, F.count z + refsExt m ext z ≤ 1) ∧
        (∀ z ∈ seen, F.count z + refsExt m ext z = 0) := by
  intro fuel
  induction fuel with
  | zero => intro m F seen h; simp [cycleLoop] at h
  | succ fuel ih =>
    intro m F seen h
    cases F with
    | nil =>
      exact ⟨[], by simp, trivial, by simp, by simp [refsExt], by simp [refsExt]⟩
    | cons x fr =>
      simp only [cycleLoop] at h
      by_cases hx : x ∈ seen
      · simp [if_pos hx] at h
      · simp only [if_neg hx] at h
        cases hlk : mapLookup m (some x) with
        | none => simp [hlk] at h
        | some e =>
          simp only [hlk] at h
          obtain ⟨ext', ha, hg, hc, hd, he⟩ := ih m _ _ h
          have hsucc : succList m x = joinStarts e := succList_of_lookup hlk
          refine ⟨x :: ext', ?_, ?_, ?_, ?_, ?_⟩
          · intro z hz
            rcases List.mem_cons.mp hz with h1 | h1
            · exact h1 ▸ hx
            · intro hzs
              exact ha z h1 (List.mem_append_left _ hzs)
          · refine ⟨?_, by simp [hlk], ?_, hg⟩
            · intro hxe
              exact ha x hxe (List.mem_append_right _ (List.mem_singleton.mpr rfl))
            · intro y hy
              refine hc y ?_
              rw [hsucc] at hy
              exact List.mem_append_left _ (List.mem_reverse.mpr hy)
          · intro y hy
            rcases List.mem_cons.mp hy with h1 | h1
            · exact h1 ▸ List.mem_cons_self _ _
            · exact List.mem_cons_of_mem _ (hc y (List.mem_append_right _ h1))
          · intro z
            have hd' := hd z
            rw [List.count_append, List.count_reverse, ← hsucc] at hd'
            rw [refsExt_cons]
            by_cases hzx : z = x
            · subst hzx
              have he' := he z (List.mem_append_right _ (List.mem_singleton.mpr rfl))
              rw [List.count_append, List.count_reverse, ← hsucc] at he'
              have h1 : fr.count z = 0 := by omega
              have h2 : (succList m z).count z = 0 := by omega
              have h3 : refsExt m ext' z = 0 := by omega
              simp [List.count_cons_self, h1, h2, h3]
            · have : (x :: fr).count z = fr.count z := by
                rw [List.count_cons]
                simp [Ne.symm hzx]
              rw [this]
              omega
          · intro z hz
            have hzx : z ≠ x := fun hzz => hx (hzz ▸ hz)
            have he' := he z (List.mem_append_left _ hz)
            rw [List.count_append, List.count_reverse, ← hsucc] at he'
            rw [refsExt_cons]
            have : (x :: fr).count z = fr.count z := by
              rw [List.count_cons]
              simp [Ne.symm hzx]
            rw [this]
            omega

/-- A `found` outcome of the DFS means the found symbol is referenced at
least twice in total: from the initial frontier and from the entries of
some set of symbols reachable from the frontier. -/
theorem cycleLoop_found :
    ∀ (fuel : Nat) (m : AnalysisMap) (F seen : List Sym) (s : Sym),
      cycleLoop m fuel F seen = .found s →
      ∃ vs : List Sym,
        (∀ y ∈ vs, y ∉ seen) ∧ vs.Nodup ∧
        (∀ y ∈ vs, ∃ r ∈ F, Relation.ReflTransGen (Rel m) r y) ∧
        F.count s + refsExt m vs s ≥ (if s ∈ seen then 1 else 2) := by
  intro fuel
  induction fuel with
  | zero => intro m F seen s h; simp [cycleLoop] at h
  | succ fuel ih =>
    intro m F seen s h
    cases F with
    | nil => simp [cycleLoop] at h
    | cons x fr =>
      simp only [cycleLoop] at h
      by_cases hx : x ∈ seen
      · simp only [if_pos hx, CycRes.found.injEq] at h
        subst h
        refine ⟨[], by simp, List.nodup_nil, by simp, ?_⟩
        rw [if_pos hx]
        have : (x :: fr).count x ≥ 1 := by
          rw [List.count_cons_self]; omega
        simp only [refsExt, List.map_nil, List.sum_nil]
        omega
      · simp only [if_neg hx] at h
        cases hlk : mapLookup m (some x) with
        | none => simp [hlk] at h
        | some e =>
          simp only [hlk] at h
          obtain ⟨vs', hs1, hs2, hs3, hs4⟩ := ih m _ _ s h
          have hsucc : succList m x = joinStarts e := succList_of_lookup hlk
          have hxvs : x ∉ vs' := fun hin =>
            hs1 x hin (List.mem_append_right _ (List.mem_singleton.mpr rfl))
          refine ⟨x :: vs', ?_, List.nodup_cons.mpr ⟨hxvs, hs2⟩, ?_, ?_⟩
          · intro y hy
            rcases List.mem_cons.mp hy with h1 | h1
            · exact h1 ▸ hx
            · intro hys
              exact hs1 y h1 (List.mem_append_left _ hys)
          · intro y hy
            rcases List.mem_cons.mp hy with h1 | h1
            · exact ⟨x, List.mem_cons_self _ _, h1 ▸ Relation.ReflTransGen.refl⟩
            · obtain ⟨r, hrF, hreach⟩ := hs3 y h1
              rcases List.mem_append.mp hrF with h2 | h2
              · refine ⟨x, List.mem_cons_self _ _, ?_⟩
                have hrel : Rel m x r := by
                  rw [Rel, hsucc]
                  exact List.mem_reverse.mp h2
                exact Relation.ReflTransGen.head hrel hreach
              · exact ⟨r, List.mem_cons_of_mem _ h2, hreach⟩
          · rw [List.count_append, List.count_reverse, ← hsucc] at hs4
            rw [refsExt_cons]
            by_cases hsx : s = x
            · subst hsx
              rw [if_pos (List.mem_append_right _ (List.mem_singleton.mpr rfl))] at hs4
              rw [if_neg hx, List.count_cons_self]
              omega
            · have hmem : (s ∈ seen ++ [x]) ↔ s ∈ seen := by
                simp [List.mem_append, hsx]
              have hcnt : (x :: fr).count s = fr.count s := by
                rw [List.count_cons]
                simp [Ne.symm hsx]
              rw [hcnt]
              by_cases hss : s ∈ seen
              · rw [if_pos (hmem.mpr hss)] at hs4
                rw [if_pos hss]
                omega
              · rw [if_neg (fun hc => hss (hmem.mp hc))] at hs4
                rw [if_neg hss]
                omega

/-- The DFS never panics on a map lookup when every join point reachable
from the frontier has an entry. -/
theorem cycleLoop_no_missing :
    ∀ (fuel : Nat) (m : AnalysisMap) (F seen : List Sym),
      (∀ y ∈ F, ReachableFromSink m y) → KeysPresent m →
      cycleLoop m fuel F seen ≠ .missing := by
  intro fuel
  induction fuel with
  | zero => intro m F seen _ _ h; simp [cycleLoop] at h
  | succ fuel ih =>
    intro m F seen hF hK h
    cases F with
    | nil => simp [cycleLoop] at h
    | cons x fr =>
      simp only [cycleLoop] at h
      by_cases hx : x ∈ seen
      · simp [if_pos hx] at h
      · simp only [if_neg hx] at h
        cases hlk : mapLookup m (some x) with
        | none =>
          exact hK x (hF x (List.mem_cons_self _ _)) hlk
        | some e =>
          simp only [hlk] at h
          refine ih m _ _ ?_ hK h
          intro y hy
          rcases List.mem_append.mp hy with h1 | h1
          · obtain ⟨r, hr, hreach⟩ := hF x (List.mem_cons_self _ _)
            refine ⟨r, hr, Relation.ReflTransGen.tail hreach ?_⟩
            rw [Rel, succList_of_lookup hlk]
            exact List.mem_reverse.mp h1
          · exact hF y (List.mem_cons_of_mem _ h1)

theorem budget_le_of_subset :
    ∀ (m : AnalysisMap) (seen seen' : List Sym), (∀ z ∈ seen, z ∈ seen') →
      budget m seen' ≤ budget m seen := by
  intro m
  induction m with
  | nil => intro _ _ _; simp [budget]
  | cons hd tl ih =>
    intro seen seen' hsub
    obtain ⟨k, vs⟩ := hd
    simp only [budget, List.map_cons, List.sum_cons]
    have htl := ih seen seen' hsub
    simp only [budget] at htl
    cases k with
    | none => simpa using htl
    | some z =>
      by_cases hz : z ∈ seen
      · simp only [if_pos hz, if_pos (hsub z hz)]
        omega
      · by_cases hz' : z ∈ seen'
        · simp only [if_pos hz', if_neg hz]
          omega
        · simp only [if_neg hz', if_neg hz]
          omega

theorem budget_insert :
    ∀ (m : AnalysisMap) (seen : List Sym) (x : Sym) (e : List Path),
      x ∉ seen → mapLookup m (some x) = some e →
      budget m (seen ++ [x]) + (joinStarts e).length ≤ budget m seen := by
  intro m
  induction m with
  | nil => intro seen x e _ h; simp [mapLookup] at h
  | cons hd tl ih =>
    intro seen x e hx hlk
    obtain ⟨k, vs⟩ := hd
    simp only [mapLookup] at hlk
    simp only [budget, List.map_cons, List.sum_cons]
    by_cases hk : (some x : Option Sym) = k
    · subst hk
      simp only [if_pos rfl] at hlk
      obtain rfl := Option.some.inj hlk
      have hx' : x ∈ seen ++ [x] := List.mem_append_right _ (List.mem_singleton.mpr rfl)
      simp only [if_pos hx', if_neg hx]
      have := budget_le_of_subset tl seen (seen ++ [x]) (fun z hz => List.mem_append_left _ hz)
      simp only [budget] at this ⊢
      omega
    · simp only [if_neg hk] at hlk
      have := ih seen x e hx hlk
      simp only [budget] at this ⊢
      cases k with
      | none => dsimp only; omega
      | some z =>
        have hzx : z ≠ x := fun hzz => hk (by rw [hzz])
        have hmem : (z ∈ seen ++ [x]) ↔ z ∈ seen := by
          simp [List.mem_append, hzx]
        by_cases hz : z ∈ seen
        · simp only [if_pos hz, if_pos (hmem.mpr hz)]
          omega
        · simp only [if_neg hz, if_neg (fun hc => hz (hmem.mp hc))]
          omega

/-- With the fuel `find_cycles` supplies, the DFS never runs out. -/
theorem cycleLoop_no_noFuel :
    ∀ (fuel : Nat) (m : AnalysisMap) (F seen : List Sym),
      F.length + budget m seen + 1 ≤ fuel →
      cycleLoop m fuel F seen ≠ .noFuel := by
  intro fuel
  induction fuel with
  | zero => intro m F seen hle; omega
  | succ fuel ih =>
    intro m F seen hle h
    cases F with
    | nil => simp [cycleLoop] at h
    | cons x fr =>
      simp only [cycleLoop] at h
      by_cases hx : x ∈ seen
      · simp [if_pos hx] at h
      · simp only [if_neg hx] at h
        cases hlk : mapLookup m (some x) with
        | none => simp [hlk] at h
        | some e =>
          simp only [hlk] at h
          refine ih m _ _ ?_ h
          have hbud := budget_insert m seen x e hx hlk
          simp only [List.length_append, List.length_reverse, List.length_cons] at *
          omega

/-! ## Plumbing for `from_recipe` -/

theorem processRule_hasCycle {s : Sym} :
    ∀ (acts : List Action) (an : Analysis) (path : Path),
      Problem.hasCycle s ∈ (processRule an path acts).problems →
      Problem.hasCycle s ∈ an.problems := by
  intro acts
  induction acts with
  | nil =>
    intro an path h
    simp only [processRule] at h
    by_cases hp : path.actions = []
    · rwa [if_pos hp] at h
    · rw [if_neg hp] at h
      simp only [List.mem_append] at h
      rcases h with h | h
      · exact h
      · simp at h
  | cons a rest ih =>
    intro an path h
    cases a with
    | action step =>
      simp only [processRule] at h
      exact ih _ _ h
    | join point =>
      simp only [processRule] at h
      have hmem := ih _ _ h
      simpa [Analysis.add] using hmem
    | done =>
      simp only [processRule] at h
      simpa [Analysis.add] using h

theorem buildRules_hasCycle {st : State} {s : Sym} :
    ∀ (rs : List RuleRef) (an an' : Analysis),
      buildRules st an rs = some an' →
      Problem.hasCycle s ∈ an'.problems → Problem.hasCycle s ∈ an.problems := by
  intro rs
  induction rs with
  | nil =>
    intro an an' h hm
    simp only [buildRules, Option.some.injEq] at h
    exact h ▸ hm
  | cons r rest ih =>
    intro an an' h hm
    simp only [buildRules] at h
    cases hg : st.rules.get? r.idx with
    | none => rw [hg] at h; exact Option.noConfusion h
    | some rule =>
      rw [hg] at h
      exact processRule_hasCycle _ _ _ (ih _ _ h hm)

theorem buildAnalysis_no_hasCycle {st : State} {r : Recipe} {an : Analysis} {s : Sym}
    (h : buildAnalysis st r = some an) : Problem.hasCycle s ∉ an.problems := by
  intro hm
  have := buildRules_hasCycle r.rules _ _ h hm
  simp at this

theorem rootsOf_lookup {m : AnalysisMap} {r : Sym} (h : r ∈ rootsOf m) :
    mapLookup m none ≠ none := by
  intro hl
  rw [rootsOf, hl] at h
  simp [joinStarts] at h

/-- If `from_recipe` returned an analysis with an empty problem list, the
map-construction phase already produced it, the sink entry is present,
and the cycle walk completed without an incident. -/
theorem from_recipe_empty_problems {st : State} {r : Recipe} {an : Analysis}
    (h : from_recipe st r = some an) (hp : an.problems = []) :
    buildAnalysis st r = some an ∧ mapLookup an.map none ≠ none ∧
    cycleLoop an.map ((rootsOf an.map).reverse.length + budget an.map [] + 1)
      (rootsOf an.map).reverse [] = .ok := by
  simp only [from_recipe] at h
  cases hb : buildAnalysis st r with
  | none => simp only [hb] at h; exact Option.noConfusion h
  | some an0 =>
    simp only [hb] at h
    by_cases hl : mapLookup an0.map none = none
    · rw [if_pos hl] at h
      obtain rfl := Option.some.inj h
      simp at hp
    · rw [if_neg hl] at h
      simp only [find_cycles] at h
      cases hres : cycleLoop an0.map
          ((rootsOf an0.map).reverse.length + budget an0.map [] + 1)
          (rootsOf an0.map).reverse [] with
      | noFuel => simp only [hres] at h; exact Option.noConfusion h
      | missing => simp only [hres] at h; exact Option.noConfusion h
      | found s =>
        simp only [hres] at h
        obtain rfl := Option.some.inj h
        simp at hp
      | ok =>
        simp only [hres] at h
        obtain rfl := Option.some.inj h
        exact ⟨rfl, hl, hres⟩

/-- If `from_recipe` recorded a cycle problem, it came from a `found`
outcome of the DFS walk. -/
theorem from_recipe_hasCycle {st : State} {r : Recipe} {an : Analysis} {s : Sym}
    (h : from_recipe st r = some an) (hs : Problem.hasCycle s ∈ an.problems) :
    cycleLoop an.map ((rootsOf an.map).reverse.length + budget an.map [] + 1)
      (rootsOf an.map).reverse [] = .found s := by
  simp only [from_recipe] at h
  cases hb : buildAnalysis st r with
  | none => simp only [hb] at h; exact Option.noConfusion h
  | some an0 =>
    simp only [hb] at h
    by_cases hl : mapLookup an0.map none = none
    · rw [if_pos hl] at h
      obtain rfl := Option.some.inj h
      simp only [List.mem_append] at hs
      rcases hs with hs | hs
      · exact absurd hs (buildAnalysis_no_hasCycle hb)
      · simp at hs
    · rw [if_neg hl] at h
      simp only [find_cycles] at h
      cases hres : cycleLoop an0.map
          ((rootsOf an0.map).reverse.length + budget an0.map [] + 1)
          (rootsOf an0.map).reverse [] with
      | noFuel => simp only [hres] at h; exact Option.noConfusion h
      | missing => simp only [hres] at h; exact Option.noConfusion h
      | found s0 =>
        simp only [hres] at h
        obtain rfl := Option.some.inj h
        simp only [List.mem_append] at hs
        rcases hs with hs | hs
        · exact absurd hs (buildAnalysis_no_hasCycle hb)
        · have hss : s = s0 := Problem.hasCycle.inj (List.mem_singleton.mp hs)
          exact hss ▸ hres
      | ok =>
        simp only [hres] at h
        obtain rfl := Option.some.inj h
        exact absurd hs (buildAnalysis_no_hasCycle hb)

/-- With a genuine reachable cycle and every reachable join point fed,
the DFS walk necessarily reports a cycle. -/
theorem cycleLoop_result_found {m : AnalysisMap}
    (hcyc : CycleReachable m) (hkeys : KeysPresent m) :
    ∃ s, cycleLoop m ((rootsOf m).reverse.length + budget m [] + 1)
      (rootsOf m).reverse [] = .found s := by
  cases hres : cycleLoop m ((rootsOf m).reverse.length + budget m [] + 1)
      (rootsOf m).reverse [] with
  | noFuel =>
    exact absurd hres (cycleLoop_no_noFuel _ _ _ _ (le_refl _))
  | missing =>
    refine absurd hres (cycleLoop_no_missing _ _ _ _ ?_ hkeys)
    intro y hy
    exact ⟨y, List.mem_reverse.mp hy, Relation.ReflTransGen.refl⟩
  | found s => exact ⟨s, rfl⟩
  | ok =>
    exfalso
    obtain ⟨ext, -, hg, hc, -, -⟩ := cycleLoop_ok _ _ _ _ hres
    obtain ⟨x, ⟨rt, hrt, hreach⟩, htg⟩ := hcyc
    have hrx : rt ∈ ext := hc rt (List.mem_reverse.mpr hrt)
    have hx : x ∈ ext := goodExt_reach hg hrx hreach
    exact goodExt_acyclic hg x hx htg

/-! ## Helper lemmas for the materializer success proof -/

theorem goodExt_nodup {m : AnalysisMap} : ∀ {ext : List Sym}, GoodExt m ext → ext.Nodup := by
  intro ext
  induction ext with
  | nil => intro _; exact List.nodup_nil
  | cons z rest ih =>
    intro h
    obtain ⟨hz, -, -, hrest⟩ := h
    exact List.Nodup.cons hz (ih hrest)

theorem refsExt_perm {m : AnalysisMap} {l1 l2 : List Sym} (h : l1.Perm l2) (z : Sym) :
    refsExt m l1 z = refsExt m l2 z :=
  List.Perm.sum_eq (h.map _)

theorem refsExt_erase {m : AnalysisMap} {ext : List Sym} {z : Sym} (hz : z ∈ ext) (y : Sym) :
    refsExt m ext y = (succList m z).count y + refsExt m (ext.erase z) y := by
  have hperm := List.perm_cons_erase hz
  rw [refsExt_perm hperm y, refsExt_cons]

theorem refsExt_sublist_le {m : AnalysisMap} {l1 l2 : List Sym} (h : l1.Sublist l2) (z : Sym) :
    refsExt m l1 z ≤ refsExt m l2 z := by
  induction h with
  | slnil => exact le_refl _
  | cons a h ih =>
    rw [refsExt_cons]
    omega
  | cons₂ a h ih =>
    rw [refsExt_cons, refsExt_cons]
    omega

theorem goodExt_erase {m : AnalysisMap} :
    ∀ {ext : List Sym} {z : Sym}, GoodExt m ext → z ∈ ext → refsExt m ext z = 0 →
      GoodExt m (ext.erase z) := by
  intro ext
  induction ext with
  | nil => intro z _ hz _; simp at hz
  | cons w rest ih =>
    intro z hg hz hr
    obtain ⟨hw, hl, hsucc, hrest⟩ := hg
    rw [refsExt_cons] at hr
    by_cases hwz : w = z
    · subst hwz
      rw [List.erase_cons_head]
      exact hrest
    · have hzr : z ∈ rest := by
        rcases List.mem_cons.mp hz with h1 | h1
        · exact absurd h1.symm hwz
        · exact h1
      rw [List.erase_cons_tail (by simp [hwz])]
      refine ⟨?_, hl, ?_, ih hrest hzr (by omega)⟩
      · intro hmem
        exact hw (List.mem_of_mem_erase hmem)
      · intro y hy
        have hyr : y ∈ rest := hsucc y hy
        have hyz : y ≠ z := by
          intro hyz
          subst hyz
          have : (succList m w).count y ≥ 1 := List.count_pos_iff.mpr hy
          omega
        exact (List.mem_erase_of_ne hyz).mpr hyr

theorem nodup_not_mem_erase : ∀ {l : List Sym} {a : Sym}, l.Nodup → a ∉ l.erase a := by
  intro l
  induction l with
  | nil => intro a _ h; simp at h
  | cons b tl ih =>
    intro a hnd hmem
    by_cases hab : b = a
    · subst hab
      rw [List.erase_cons_head] at hmem
      exact (List.nodup_cons.mp hnd).1 hmem
    · rw [List.erase_cons_tail (by simp [hab])] at hmem
      rcases List.mem_cons.mp hmem with h1 | h1
      · exact hab h1.symm
      · exact ih (List.nodup_cons.mp hnd).2 h1

theorem joinStarts_cons_join {p : Path} {ps : List Path} {pt : StringRef}
    (h : p.start = Input.join pt) :
    joinStarts (p :: ps) = pt.value :: joinStarts ps := by
  simp [joinStarts, List.filterMap_cons, h]

theorem joinStarts_cons_ing {p : Path} {ps : List Path} {l : List IngredientRef}
    (h : p.start = Input.ingredients l) :
    joinStarts (p :: ps) = joinStarts ps := by
  simp [joinStarts, List.filterMap_cons, h]

/-- Success of the tree materializer: with enough fuel, intact entries
for a topologically ordered set `ext` (relative to the reference map
`m0`) covering the pending join demands, each join point demanded at
most once in total, the conversion succeeds, consumes only entries whose
demand was pending, and leaves the invariant intact for the remaining
symbols. -/
theorem convStep_success (m0 : AnalysisMap) :
    ∀ (fuel : Nat) (m : AnalysisMap) (ps : List Path) (ext : List Sym),
      totalWeight m + ps.length + 1 ≤ fuel →
      (∀ z ∈ ext, mapLookup m (some z) = mapLookup m0 (some z)) →
      GoodExt m0 ext →
      (∀ y ∈ joinStarts ps, y ∈ ext) →
      (∀ z, (joinStarts ps).count z + refsExt m0 ext z ≤ 1) →
      ∃ m' nodes s d ext',
        convStep fuel m ps = some (m', nodes, s, d) ∧
        ext'.Sublist ext ∧ GoodExt m0 ext' ∧
        (∀ z ∈ ext', mapLookup m' (some z) = mapLookup m0 (some z)) ∧
        totalWeight m' ≤ totalWeight m ∧
        (∀ z ∈ ext, (joinStarts ps).count z = 0 → refsExt m0 ext z = 0 → z ∈ ext') := by
  intro fuel
  induction fuel with
  | zero => intro m ps ext hf _ _ _ _; omega
  | succ fuel ih =>
    intro m ps ext hf hintact hg hmem hcount
    cases ps with
    | nil =>
      exact ⟨m, [], 0, 0, ext, by simp [convStep], List.Sublist.refl _, hg, hintact,
        le_refl _, fun z hz _ _ => hz⟩
    | cons p rest =>
      cases hst : p.start with
      | ingredients list =>
        simp only [joinStarts_cons_ing hst] at hmem hcount
        have hf2 : totalWeight m + rest.length + 1 ≤ fuel := by
          simp only [List.length_cons] at hf
          omega
        obtain ⟨m4, nodes2, s2, d2, ext3, hconv, hsub, hg3, hint3, hw3, hsurv⟩ :=
          ih m rest ext hf2 hintact hg hmem hcount
        refine ⟨m4,
          BackwardTree.mk p.actions [] list list.length p.actions.length :: nodes2,
          (BackwardTree.mk p.actions [] list list.length p.actions.length).size + s2,
          max (BackwardTree.mk p.actions [] list list.length p.actions.length).max_depth d2,
          ext3, ?_, hsub, hg3, hint3, hw3, ?_⟩
        · simp only [convStep, hst, hconv]
        · intro z hz hc hr
          rw [joinStarts_cons_ing hst] at hc
          exact hsurv z hz hc hr
      | join pt =>
        simp only [joinStarts_cons_join hst] at hmem hcount
        have hzext : pt.value ∈ ext := hmem _ (List.mem_cons_self _ _)
        have hlk0 : mapLookup m0 (some pt.value) ≠ none := goodExt_lookup hg _ hzext
        obtain ⟨e, he0⟩ : ∃ e, mapLookup m0 (some pt.value) = some e := by
          cases h0 : mapLookup m0 (some pt.value) with
          | none => exact absurd h0 hlk0
          | some e => exact ⟨e, rfl⟩
        have hlkm : mapLookup m (some pt.value) = some e := (hintact _ hzext).trans he0
        obtain ⟨m1, hrem⟩ := lookup_remove hlkm
        have hsucc0 : succList m0 pt.value = joinStarts e := succList_of_lookup he0
        have hcz := hcount pt.value
        rw [List.count_cons_self] at hcz
        have hrefz : refsExt m0 ext pt.value = 0 := by omega
        have hcrz : (joinStarts rest).count pt.value = 0 := by omega
        have hnd : ext.Nodup := goodExt_nodup hg
        have hszz : (succList m0 pt.value).count pt.value = 0 := by
          have hdec := refsExt_erase (m := m0) hzext pt.value
          omega
        have hg1 : GoodExt m0 (ext.erase pt.value) := goodExt_erase hg hzext hrefz
        have hint1 : ∀ y ∈ ext.erase pt.value,
            mapLookup m1 (some y) = mapLookup m0 (some y) := by
          intro y hy
          have hyx : y ∈ ext := List.mem_of_mem_erase hy
          have hyz : y ≠ pt.value := by
            intro hyz
            exact nodup_not_mem_erase hnd (hyz ▸ hy)
          rw [mapRemove_lookup_other hrem (some y) (by simp [hyz])]
          exact hintact y hyx
        have hmem1 : ∀ y ∈ joinStarts e, y ∈ ext.erase pt.value := by
          intro y hy
          rw [← hsucc0] at hy
          have hyext : y ∈ ext := goodExt_closed hg _ hzext y hy
          have hyz : y ≠ pt.value := by
            intro hyz
            rw [hyz] at hy
            have hge : (succList m0 pt.value).count pt.value ≥ 1 :=
              List.count_pos_iff.mpr hy
            omega
          exact (List.mem_erase_of_ne hyz).mpr hyext
        have hcount1 : ∀ y, (joinStarts e).count y + refsExt m0 (ext.erase pt.value) y ≤ 1 := by
          intro y
          have hdec := refsExt_erase (m := m0) hzext y
          rw [hsucc0] at hdec
          have hcy := hcount y
          omega
        have hwrem := mapRemove_weight hrem
        have hf1 : totalWeight m1 + e.length + 1 ≤ fuel := by
          simp only [List.length_cons] at hf
          omega
        obtain ⟨m2, children, cs, cd, ext2, hconv1, hsub2, hg2, hint2, hw2, hsurv1⟩ :=
          ih m1 e (ext.erase pt.value) hf1 hint1 hg1 hmem1 hcount1
        have hf2 : totalWeight m2 + rest.length + 1 ≤ fuel := by
          simp only [List.length_cons] at hf
          omega
        have hmemR : ∀ y ∈ joinStarts rest, y ∈ ext2 := by
          intro y hy
          have hcy := hcount y
          have hy1 : (joinStarts rest).count y ≥ 1 := List.count_pos_iff.mpr hy
          have hyz : y ≠ pt.value := by
            intro hyz
            subst hyz
            omega
          have hyext : y ∈ ext := hmem y (List.mem_cons_of_mem _ hy)
          have hyext1 : y ∈ ext.erase pt.value := (List.mem_erase_of_ne hyz).mpr hyext
          have hrefy : refsExt m0 ext y = 0 := by
            rw [List.count_cons] at hcy
            omega
          have hdec := refsExt_erase (m := m0) hzext y
          rw [hsucc0] at hdec
          refine hsurv1 y hyext1 (by omega) (by omega)
        have hcountR : ∀ y, (joinStarts rest).count y + refsExt m0 ext2 y ≤ 1 := by
          intro y
          have h1 : refsExt m0 ext2 y ≤ refsExt m0 (ext.erase pt.value) y :=
            refsExt_sublist_le hsub2 y
          have h2 : refsExt m0 (ext.erase pt.value) y ≤ refsExt m0 ext y := by
            have hdec := refsExt_erase (m := m0) hzext y
            omega
          have hcy := hcount y
          rw [List.count_cons] at hcy
          omega
        obtain ⟨m4, nodes2, s2, d2, ext3, hconv2, hsub3, hg3, hint3, hw4, hsurv2⟩ :=
          ih m2 rest ext2 hf2 hint2 hg2 hmemR hcountR
        refine ⟨m4,
          BackwardTree.mk p.actions children [] cs (cd + p.actions.length) :: nodes2,
          (BackwardTree.mk p.actions children [] cs (cd + p.actions.length)).size + s2,
          max (BackwardTree.mk p.actions children [] cs (cd + p.actions.length)).max_depth d2,
          ext3, ?_, ?_, hg3, hint3, ?_, ?_⟩
        · simp only [convStep, hst, hrem, hconv1, hconv2]
        · exact (hsub3.trans hsub2).trans (List.erase_sublist _ _)
        · omega
        · intro z0 hz0 hc0 hr0
          rw [joinStarts_cons_join hst] at hc0
          have hz0z : z0 ≠ pt.value := by
            intro hq
            subst hq
            rw [List.count_cons_self] at hc0
            omega
          have hz0c : (joinStarts rest).count z0 = 0 := by
            have hcc : (pt.value :: joinStarts rest).count z0 = (joinStarts rest).count z0 := by
              rw [List.count_cons]
              simp [Ne.symm hz0z]
            omega
          have hz01 : z0 ∈ ext.erase pt.value := (List.mem_erase_of_ne hz0z).mpr hz0
          have hdec := refsExt_erase (m := m0) hzext z0
          rw [hsucc0] at hdec
          have hz02 : z0 ∈ ext2 := hsurv1 z0 hz01 (by omega) (by omega)
          have hrefz2 : refsExt m0 ext2 z0 = 0 := by
            have h1 : refsExt m0 ext2 z0 ≤ refsExt m0 (ext.erase pt.value) z0 :=
              refsExt_sublist_le hsub2 z0
            omega
          exact hsurv2 z0 hz02 hz0c hrefz2

/-- Core of claim C9: an analysis returned by `from_recipe` with no
problems always materializes successfully. -/
theorem into_tree_succeeds {st : State} {r : Recipe} {an : Analysis}
    (h : from_recipe st r = some an) (hp : an.problems = []) :
    ∃ t, into_tree an = some (Except.ok t) := by
  obtain ⟨-, hl, hok⟩ := from_recipe_empty_problems h hp
  obtain ⟨ext, -, hg, hc, hd, -⟩ := cycleLoop_ok _ _ _ _ hok
  obtain ⟨entry, hle⟩ : ∃ e, mapLookup an.map none = some e := by
    cases h0 : mapLookup an.map none with
    | none => exact absurd h0 hl
    | some e => exact ⟨e, rfl⟩
  obtain ⟨m1, hrem⟩ := lookup_remove hle
  have hroots : rootsOf an.map = joinStarts entry := by
    rw [rootsOf, hle]
    rfl
  have hintact : ∀ z ∈ ext, mapLookup m1 (some z) = mapLookup an.map (some z) := by
    intro z hz
    exact mapRemove_lookup_other hrem (some z) (by simp)
  have hmem : ∀ y ∈ joinStarts entry, y ∈ ext := by
    intro y hy
    exact hc y (List.mem_reverse.mpr (hroots ▸ hy))
  have hcount : ∀ z, (joinStarts entry).count z + refsExt an.map ext z ≤ 1 := by
    intro z
    have hdz := hd z
    rw [List.count_reverse, hroots] at hdz
    exact hdz
  obtain ⟨m', nodes, s, d, ext', hconv, -, -, -, -, -⟩ :=
    convStep_success an.map (totalWeight m1 + entry.length + 1) m1 entry ext
      (le_refl _) hintact hg hmem hcount
  refine ⟨BackwardTree.mk [] nodes [] s d, ?_⟩
  simp only [into_tree, hp, ne_eq, not_true_eq_false, ite_false, hrem, hconv,
    not_false_eq_true]

/-! ## Well-formedness of materialized trees -/

theorem mapAdd_entriesNonempty {m : AnalysisMap} {k : Option Sym} {v : Path}
    (h : EntriesNonempty m) : EntriesNonempty (mapAdd m k v) := by
  induction m with
  | nil => intro e he; simp only [mapAdd, List.mem_singleton] at he; subst he; simp
  | cons hd tl ih =>
    obtain ⟨k0, vs⟩ := hd
    intro e he
    simp only [mapAdd] at he
    by_cases hk : k = k0
    · rw [if_pos hk] at he
      rcases List.mem_cons.mp he with h1 | h1
      · subst h1; simp
      · exact h e (List.mem_cons_of_mem _ h1)
    · rw [if_neg hk] at he
      rcases List.mem_cons.mp he with h1 | h1
      · subst h1
        exact h (k0, vs) (List.mem_cons_self _ _)
      · exact ih (fun e2 he2 => h e2 (List.mem_cons_of_mem _ he2)) e h1

theorem processRule_entriesNonempty :
    ∀ (acts : List Action) (an : Analysis) (path : Path),
      EntriesNonempty an.map → EntriesNonempty (processRule an path acts).map := by
  intro acts
  induction acts with
  | nil =>
    intro an path h
    simp only [processRule]
    by_cases hp : path.actions = []
    · rwa [if_pos hp]
    · rwa [if_neg hp]
  | cons a rest ih =>
    intro an path h
    cases a with
    | action step =>
      simp only [processRule]
      exact ih _ _ h
    | join point =>
      simp only [processRule]
      exact ih _ _ (mapAdd_entriesNonempty h)
    | done =>
      simp only [processRule]
      exact mapAdd_entriesNonempty h

theorem buildRules_entriesNonempty {st : State} :
    ∀ (rs : List RuleRef) (an an' : Analysis),
      buildRules st an rs = some an' → EntriesNonempty an.map → EntriesNonempty an'.map := by
  intro rs
  induction rs with
  | nil =>
    intro an an' h hne
    simp only [buildRules, Option.some.injEq] at h
    exact h ▸ hne
  | cons r rest ih =>
    intro an an' h hne
    simp only [buildRules] at h
    cases hg : st.rules.get? r.idx with
    | none => rw [hg] at h; exact Option.noConfusion h
    | some rule =>
      rw [hg] at h
      exact ih _ _ h (processRule_entriesNonempty _ _ _ hne)

theorem buildAnalysis_entriesNonempty {st : State} {r : Recipe} {an : Analysis}
    (h : buildAnalysis st r = some an) : EntriesNonempty an.map := by
  refine buildRules_entriesNonempty r.rules _ _ h ?_
  intro e he
  simp at he

theorem mapAdd_pathsOk {P : Path → Prop} {m : AnalysisMap} {k : Option Sym} {v : Path}
    (hm : ∀ e ∈ m, ∀ p ∈ e.2, P p) (hv : P v) :
    ∀ e ∈ mapAdd m k v, ∀ p ∈ e.2, P p := by
  induction m with
  | nil =>
    intro e he
    simp only [mapAdd, List.mem_singleton] at he
    subst he
    intro p hp
    rw [List.mem_singleton.mp hp]
    exact hv
  | cons hd tl ih =>
    obtain ⟨k0, vs⟩ := hd
    intro e he
    simp only [mapAdd] at he
    by_cases hk : k = k0
    · rw [if_pos hk] at he
      rcases List.mem_cons.mp he with h1 | h1
      · subst h1
        intro p hp
        rcases List.mem_append.mp hp with h2 | h2
        · exact hm (k0, vs) (List.mem_cons_self _ _) p h2
        · rw [List.mem_singleton.mp h2]
          exact hv
      · exact hm e (List.mem_cons_of_mem _ h1)
    · rw [if_neg hk] at he
      rcases List.mem_cons.mp he with h1 | h1
      · subst h1
        exact hm (k0, vs) (List.mem_cons_self _ _)
      · exact ih (fun e2 he2 => hm e2 (List.mem_cons_of_mem _ he2)) e h1

theorem processRule_pathsOk :
    ∀ (acts : List Action) (an : Analysis) (path : Path),
      (∀ e ∈ an.map, ∀ p ∈ e.2, PathIngOk p) → PathIngOk path →
      ∀ e ∈ (processRule an path acts).map, ∀ p ∈ e.2, PathIngOk p := by
  intro acts
  induction acts with
  | nil =>
    intro an path hm hp
    simp only [processRule]
    by_cases hc : path.actions = []
    · rwa [if_pos hc]
    · rwa [if_neg hc]
  | cons a rest ih =>
    intro an path hm hp
    cases a with
    | action step =>
      simp only [processRule]
      exact ih _ _ hm hp
    | join point =>
      simp only [processRule]
      refine ih _ _ (mapAdd_pathsOk hm hp) ?_
      simp [PathIngOk]
    | done =>
      simp only [processRule]
      exact mapAdd_pathsOk hm hp

theorem buildRules_pathsOk {st : State} :
    ∀ (rs : List RuleRef) (an an' : Analysis),
      buildRules st an rs = some an' →
      (∀ rr ∈ rs, ∀ rule, st.rules.get? rr.idx = some rule →
        ∀ l, rule.input = Input.ingredients l → l ≠ []) →
      (∀ e ∈ an.map, ∀ p ∈ e.2, PathIngOk p) →
      ∀ e ∈ an'.map, ∀ p ∈ e.2, PathIngOk p := by
  intro rs
  induction rs with
  | nil =>
    intro an an' h _ hm
    simp only [buildRules, Option.some.injEq] at h
    exact h ▸ hm
  | cons r rest ih =>
    intro an an' h hr hm
    simp only [buildRules] at h
    cases hg : st.rules.get? r.idx with
    | none => rw [hg] at h; exact Option.noConfusion h
    | some rule =>
      rw [hg] at h
      refine ih _ _ h (fun rr hrr => hr rr (List.mem_cons_of_mem _ hrr)) ?_
      refine processRule_pathsOk _ _ _ hm ?_
      unfold PathIngOk
      cases hin : rule.input with
      | ingredients l =>
        exact hr r (List.mem_cons_self _ _) rule hg l hin
      | join pt => trivial

theorem buildAnalysis_pathIngOk {st : State} {r : Recipe} {an : Analysis}
    (h : buildAnalysis st r = some an) (hing : RecipeIngOk st r) :
    MapPathsOk PathIngOk an.map := by
  refine buildRules_pathsOk r.rules _ _ h hing ?_
  intro e he
  simp at he

theorem convStep_sub :
    ∀ (fuel : Nat) (m : AnalysisMap) (ps : List Path) (m' : AnalysisMap)
      (nodes : List BackwardTree) (s d : Nat),
      convStep fuel m ps = some (m', nodes, s, d) → ∀ e ∈ m', e ∈ m := by
  intro fuel
  induction fuel with
  | zero => intro m ps m' nodes s d h; simp [convStep] at h
  | succ fuel ih =>
    intro m ps m' nodes s d h
    cases ps with
    | nil =>
      simp only [convStep, Option.some.injEq, Prod.mk.injEq] at h
      obtain ⟨hm, -⟩ := h
      exact hm ▸ fun e he => he
    | cons p rest =>
      cases hst : p.start with
      | ingredients list =>
        simp only [convStep, hst] at h
        cases hrest : convStep fuel m rest with
        | none => simp only [hrest] at h; exact Option.noConfusion h
        | some q =>
          obtain ⟨m4, nodes2, s2, d2⟩ := q
          simp only [hrest, Option.some.injEq, Prod.mk.injEq] at h
          obtain ⟨hm, -⟩ := h
          exact hm ▸ ih m rest m4 nodes2 s2 d2 hrest
      | join pt =>
        simp only [convStep, hst] at h
        cases hrem : mapRemove m (some pt.value) with
        | none => simp only [hrem] at h; exact Option.noConfusion h
        | some q =>
          obtain ⟨e, m1⟩ := q
          simp only [hrem] at h
          cases hconv : convStep fuel m1 e with
          | none => simp only [hconv] at h; exact Option.noConfusion h
          | some q2 =>
            obtain ⟨m2, children, cs, cd⟩ := q2
            simp only [hconv] at h
            cases hrest : convStep fuel m2 rest with
            | none => simp only [hrest] at h; exact Option.noConfusion h
            | some q3 =>
              obtain ⟨m4, nodes2, s2, d2⟩ := q3
              simp only [hrest, Option.some.injEq, Prod.mk.injEq] at h
              obtain ⟨hm, -⟩ := h
              intro en hen
              exact mapRemove_mem hrem en
                (ih m1 e m2 children cs cd hconv en
                  (ih m2 rest m4 nodes2 s2 d2 hrest en (hm ▸ hen)))

theorem convStep_wft :
    ∀ (fuel : Nat) (m : AnalysisMap) (ps : List Path) (m' : AnalysisMap)
      (nodes : List BackwardTree) (s d : Nat),
      convStep fuel m ps = some (m', nodes, s, d) →
      (∀ p ∈ ps, PathIngOk p) → MapPathsOk PathIngOk m → EntriesNonempty m →
      ∀ n ∈ nodes, WFT n := by
  intro fuel
  induction fuel with
  | zero => intro m ps m' nodes s d h; simp [convStep] at h
  | succ fuel ih =>
    intro m ps m' nodes s d h hps hmap hne
    cases ps with
    | nil =>
      simp only [convStep, Option.some.injEq, Prod.mk.injEq] at h
      obtain ⟨-, hn, -⟩ := h
      subst hn
      intro n hn
      simp at hn
    | cons p rest =>
      cases hst : p.start with
      | ingredients list =>
        simp only [convStep, hst] at h
        cases hrest : convStep fuel m rest with
        | none => simp only [hrest] at h; exact Option.noConfusion h
        | some q =>
          obtain ⟨m4, nodes2, s2, d2⟩ := q
          simp only [hrest, Option.some.injEq, Prod.mk.injEq] at h
          obtain ⟨-, hn, -⟩ := h
          subst hn
          intro n hn
          rcases List.mem_cons.mp hn with h1 | h1
          · subst h1
            have hlist : list ≠ [] := by
              have hp := hps p (List.mem_cons_self _ _)
              unfold PathIngOk at hp
              simp only [hst] at hp
              exact hp
            exact WFT.mk _ _ _ _ _ (by simp) (fun _ => hlist) (by simp) (by simp [maxMd])
          · exact ih m rest m4 nodes2 s2 d2 hrest
              (fun q hq => hps q (List.mem_cons_of_mem _ hq)) hmap hne n h1
      | join pt =>
        simp only [convStep, hst] at h
        cases hrem : mapRemove m (some pt.value) with
        | none => simp only [hrem] at h; exact Option.noConfusion h
        | some q =>
          obtain ⟨e, m1⟩ := q
          simp only [hrem] at h
          cases hconv : convStep fuel m1 e with
          | none => simp only [hconv] at h; exact Option.noConfusion h
          | some q2 =>
            obtain ⟨m2, children, cs, cd⟩ := q2
            simp only [hconv] at h
            cases hrest : convStep fuel m2 rest with
            | none => simp only [hrest] at h; exact Option.noConfusion h
            | some q3 =>
              obtain ⟨m4, nodes2, s2, d2⟩ := q3
              simp only [hrest, Option.some.injEq, Prod.mk.injEq] at h
              obtain ⟨-, hn, -⟩ := h
              subst hn
              have hemem := mapRemove_self_mem hrem
              have hepaths : ∀ p2 ∈ e, PathIngOk p2 := fun p2 hp2 => hmap _ hemem p2 hp2
              have hene : e ≠ [] := hne _ hemem
              have hm1map : MapPathsOk PathIngOk m1 :=
                fun e2 he2 => hmap e2 (mapRemove_mem hrem e2 he2)
              have hm1ne : EntriesNonempty m1 :=
                fun e2 he2 => hne e2 (mapRemove_mem hrem e2 he2)
              have hm2map : MapPathsOk PathIngOk m2 :=
                fun e2 he2 => hm1map e2 (convStep_sub fuel m1 e m2 children cs cd hconv e2 he2)
              have hm2ne : EntriesNonempty m2 :=
                fun e2 he2 => hm1ne e2 (convStep_sub fuel m1 e m2 children cs cd hconv e2 he2)
              obtain ⟨-, hsc, hdc, hlc⟩ := convStep_inv fuel m1 e m2 children cs cd hconv
              have hchne : children ≠ [] := by
                intro hcn
                rw [hcn] at hlc
                simp at hlc
                exact hene (List.length_eq_zero.mp hlc.symm)
              intro n hn
              rcases List.mem_cons.mp hn with h1 | h1
              · subst h1
                refine WFT.mk _ _ _ _ _
                  (ih m1 e m2 children cs cd hconv hepaths hm1map hm1ne)
                  (fun hcn => absurd hcn hchne) ?_ (by rw [hdc]; omega)
                rw [if_neg hchne]
                exact hsc
              · exact ih m2 rest m4 nodes2 s2 d2 hrest
                  (fun q hq => hps q (List.mem_cons_of_mem _ hq)) hm2map hm2ne n h1

theorem convStep_wfr :
    ∀ (fuel : Nat) (m : AnalysisMap) (ps : List Path) (m' : AnalysisMap)
      (nodes : List BackwardTree) (s d : Nat),
      convStep fuel m ps = some (m', nodes, s, d) →
      (∀ p ∈ ps, PathIngOk p ∧ PathActOk p) →
      MapPathsOk PathIngOk m → MapPathsOk PathActOk m → EntriesNonempty m →
      ∀ n ∈ nodes, WFR n := by
  intro fuel
  induction fuel with
  | zero => intro m ps m' nodes s d h; simp [convStep] at h
  | succ fuel ih =>
    intro m ps m' nodes s d h hps hmapI hmapA hne
    cases ps with
    | nil =>
      simp only [convStep, Option.some.injEq, Prod.mk.injEq] at h
      obtain ⟨-, hn, -⟩ := h
      subst hn
      intro n hn
      simp at hn
    | cons p rest =>
      cases hst : p.start with
      | ingredients list =>
        simp only [convStep, hst] at h
        cases hrest : convStep fuel m rest with
        | none => simp only [hrest] at h; exact Option.noConfusion h
        | some q =>
          obtain ⟨m4, nodes2, s2, d2⟩ := q
          simp only [hrest, Option.some.injEq, Prod.mk.injEq] at h
          obtain ⟨-, hn, -⟩ := h
          subst hn
          intro n hn
          rcases List.mem_cons.mp hn with h1 | h1
          · subst h1
            have hlist : list ≠ [] := by
              have hp := (hps p (List.mem_cons_self _ _)).1
              unfold PathIngOk at hp
              simp only [hst] at hp
              exact hp
            exact WFR.mk _ _ _ _ _ (by simp) (fun _ => hlist) (fun hc => absurd rfl hc)
              (by simp) (by simp [maxMd])
          · exact ih m rest m4 nodes2 s2 d2 hrest
              (fun q hq => hps q (List.mem_cons_of_mem _ hq)) hmapI hmapA hne n h1
      | join pt =>
        simp only [convStep, hst] at h
        cases hrem : mapRemove m (some pt.value) with
        | none => simp only [hrem] at h; exact Option.noConfusion h
        | some q =>
          obtain ⟨e, m1⟩ := q
          simp only [hrem] at h
          cases hconv : convStep fuel m1 e with
          | none => simp only [hconv] at h; exact Option.noConfusion h
          | some q2 =>
            obtain ⟨m2, children, cs, cd⟩ := q2
            simp only [hconv] at h
            cases hrest : convStep fuel m2 rest with
            | none => simp only [hrest] at h; exact Option.noConfusion h
            | some q3 =>
              obtain ⟨m4, nodes2, s2, d2⟩ := q3
              simp only [hrest, Option.some.injEq, Prod.mk.injEq] at h
              obtain ⟨-, hn, -⟩ := h
              subst hn
              have hemem := mapRemove_self_mem hrem
              have hepaths : ∀ p2 ∈ e, PathIngOk p2 ∧ PathActOk p2 :=
                fun p2 hp2 => ⟨hmapI _ hemem p2 hp2, hmapA _ hemem p2 hp2⟩
              have hene : e ≠ [] := hne _ hemem
              have hm1mapI : MapPathsOk PathIngOk m1 :=
                fun e2 he2 => hmapI e2 (mapRemove_mem hrem e2 he2)
              have hm1mapA : MapPathsOk PathActOk m1 :=
                fun e2 he2 => hmapA e2 (mapRemove_mem hrem e2 he2)
              have hm1ne : EntriesNonempty m1 :=
                fun e2 he2 => hne e2 (mapRemove_mem hrem e2 he2)
              have hm2mapI : MapPathsOk PathIngOk m2 :=
                fun e2 he2 => hm1mapI e2 (convStep_sub fuel m1 e m2 children cs cd hconv e2 he2)
              have hm2mapA : MapPathsOk PathActOk m2 :=
                fun e2 he2 => hm1mapA e2 (convStep_sub fuel m1 e m2 children cs cd hconv e2 he2)
              have hm2ne : EntriesNonempty m2 :=
                fun e2 he2 => hm1ne e2 (convStep_sub fuel m1 e m2 children cs cd hconv e2 he2)
              obtain ⟨-, hsc, hdc, hlc⟩ := convStep_inv fuel m1 e m2 children cs cd hconv
              have hchne : children ≠ [] := by
                intro hcn
                rw [hcn] at hlc
                simp at hlc
                exact hene (List.length_eq_zero.mp hlc.symm)
              have hact : p.actions ≠ [] := by
                have hp := (hps p (List.mem_cons_self _ _)).2
                unfold PathActOk at hp
                simp only [hst] at hp
                exact hp
              intro n hn
              rcases List.mem_cons.mp hn with h1 | h1
              · subst h1
                refine WFR.mk _ _ _ _ _
                  (ih m1 e m2 children cs cd hconv hepaths hm1mapI hm1mapA hm1ne)
                  (fun hcn => absurd hcn hchne) (fun _ => ⟨rfl, hact⟩)
                  ?_ (by rw [hdc]; omega)
                rw [if_neg hchne]
                exact hsc
              · exact ih m2 rest m4 nodes2 s2 d2 hrest
                  (fun q hq => hps q (List.mem_cons_of_mem _ hq)) hm2mapI hm2mapA hm2ne n h1

/-! ## Grid algebra for the layout -/

theorem coverFrom_zero {r : Row} {dist : Nat} (h : ∀ c ∈ r, c.rowspan ≤ dist) :
    coverFrom r dist = 0 := by
  induction r with
  | nil => simp [coverFrom]
  | cons c cs ih =>
    have hc := h c (List.mem_cons_self _ _)
    simp only [coverFrom, List.filter_cons]
    rw [if_neg (by simp; omega)]
    exact ih fun c2 hc2 => h c2 (List.mem_cons_of_mem _ hc2)

theorem coverFrom_append (r1 r2 : Row) (dist : Nat) :
    coverFrom (r1 ++ r2) dist = coverFrom r1 dist + coverFrom r2 dist := by
  simp [coverFrom, List.filter_append]

theorem rowWidth_append (r1 r2 : Row) :
    rowWidth (r1 ++ r2) = rowWidth r1 + rowWidth r2 := by
  simp [rowWidth]

theorem coverInto_append (g1 g2 : Grid) :
    ∀ i, coverInto (g1 ++ g2) i = coverInto g1 i + coverInto g2 (i - g1.length) := by
  induction g1 with
  | nil =>
    intro i
    cases i <;> simp [coverInto]
  | cons r rest ih =>
    intro i
    cases i with
    | zero => simp [coverInto]
    | succ j =>
      rw [List.cons_append]
      have h1 : coverInto (r :: (rest ++ g2)) (j + 1) =
          coverFrom r (j + 1) + coverInto (rest ++ g2) j := rfl
      have h2 : coverInto (r :: rest) (j + 1) =
          coverFrom r (j + 1) + coverInto rest j := rfl
      rw [h1, h2, ih j, List.length_cons]
      have heq : j + 1 - (rest.length + 1) = j - rest.length := by omega
      rw [heq]
      omega

theorem containedGrid_tail {r : Row} {rest : Grid} (h : containedGrid (r :: rest)) :
    containedGrid rest := by
  intro j hj c hc
  have hb := h (j + 1) (by simp; omega) c (by simpa using hc)
  have hlen : (r :: rest).length = rest.length + 1 := by simp
  omega

theorem coverInto_contained_zero {g : Grid} (hg : containedGrid g) :
    ∀ {i : Nat}, g.length ≤ i → coverInto g i = 0 := by
  induction g with
  | nil => intro i _; cases i <;> simp [coverInto]
  | cons r rest ih =>
    intro i hi
    cases i with
    | zero => simp at hi
    | succ j =>
      simp only [coverInto]
      rw [coverFrom_zero, ih (containedGrid_tail hg) (by simp at hi; omega)]
      intro c hc
      have hb := hg 0 (by simp) c (by simpa using hc)
      have hlen : (r :: rest).length = rest.length + 1 := by simp
      omega

theorem effOcc_cons_zero (r : Row) (rest : Grid) : effOcc (r :: rest) 0 = rowWidth r := by
  simp [effOcc, coverInto]

theorem effOcc_cons_succ (r : Row) (rest : Grid) (i : Nat) :
    effOcc (r :: rest) (i + 1) = effOcc rest i + coverFrom r (i + 1) := by
  simp only [effOcc, coverInto, List.getD_cons_succ]
  omega

theorem effOcc_append_left {g1 : Grid} (g2 : Grid) {i : Nat} (hi : i < g1.length) :
    effOcc (g1 ++ g2) i = effOcc g1 i := by
  simp only [effOcc, coverInto_append]
  rw [Nat.sub_eq_zero_of_le (le_of_lt hi)]
  simp only [coverInto]
  rw [List.getD_append _ _ _ _ hi]
  omega

theorem effOcc_append_right {g1 : Grid} (g2 : Grid) {i : Nat}
    (hg1 : containedGrid g1) (hi : g1.length ≤ i) :
    effOcc (g1 ++ g2) i = effOcc g2 (i - g1.length) := by
  simp only [effOcc, coverInto_append]
  rw [coverInto_contained_zero hg1 hi, List.getD_append_right _ _ _ _ hi]
  omega

theorem containedGrid_append {g1 g2 : Grid} (h1 : containedGrid g1) (h2 : containedGrid g2) :
    containedGrid (g1 ++ g2) := by
  intro j hj c hc
  simp only [List.length_append] at hj ⊢
  by_cases hjl : j < g1.length
  · rw [List.getD_append _ _ _ _ hjl] at hc
    have := h1 j hjl c hc
    omega
  · have hge : g1.length ≤ j := by omega
    rw [List.getD_append_right _ _ _ _ hge] at hc
    have := h2 (j - g1.length) (by omega) c hc
    omega

theorem flatten_grids {w : Nat} :
    ∀ (gs : List Grid),
      (∀ g ∈ gs, containedGrid g ∧ ∀ i < g.length, effOcc g i = w) →
      containedGrid gs.flatten ∧ ∀ i < gs.flatten.length, effOcc gs.flatten i = w := by
  intro gs
  induction gs with
  | nil =>
    intro _
    constructor
    · intro j hj; simp at hj
    · intro i hi; simp at hi
  | cons g rest ih =>
    intro h
    obtain ⟨hc, he⟩ := h g (List.mem_cons_self _ _)
    obtain ⟨hcr, her⟩ := ih fun g2 hg2 => h g2 (List.mem_cons_of_mem _ hg2)
    rw [List.flatten_cons]
    refine ⟨containedGrid_append hc hcr, ?_⟩
    intro i hi
    by_cases hil : i < g.length
    · rw [effOcc_append_left _ hil]
      exact he i hil
    · have hge : g.length ≤ i := by omega
      rw [effOcc_append_right _ hc hge]
      refine her (i - g.length) ?_
      simp only [List.length_append] at hi
      omega

theorem modifyHead_append_length (base : Grid) (extra : Row) :
    (base.modifyHead (· ++ extra)).length = base.length := by
  cases base <;> simp [List.modifyHead]

theorem effOcc_modifyHead (base : Grid) (extra : Row) (hne : base ≠ []) :
    ∀ i, effOcc (base.modifyHead (· ++ extra)) i =
      effOcc base i + (if i = 0 then rowWidth extra else coverFrom extra i) := by
  cases base with
  | nil => exact absurd rfl hne
  | cons r rest =>
    intro i
    simp only [List.modifyHead]
    cases i with
    | zero =>
      rw [if_pos rfl, effOcc_cons_zero, effOcc_cons_zero, rowWidth_append]
    | succ j =>
      rw [if_neg (by omega), effOcc_cons_succ, effOcc_cons_succ, coverFrom_append]
      omega

theorem containedGrid_modifyHead {base : Grid} {extra : Row} (hc : containedGrid base)
    (he : ∀ c ∈ extra, c.rowspan ≤ base.length) :
    containedGrid (base.modifyHead (· ++ extra)) := by
  cases base with
  | nil => simpa [List.modifyHead] using hc
  | cons r rest =>
    simp only [List.modifyHead]
    intro j hj c hcell
    simp only [List.length_cons] at hj ⊢
    cases j with
    | zero =>
      simp only [List.getD_cons_zero] at hcell
      rcases List.mem_append.mp hcell with h1 | h1
      · have := hc 0 (by simp) c (by simpa using h1)
        simp only [List.length_cons] at this
        omega
      · have := he c h1
        simp only [List.length_cons] at this
        omega
    | succ i =>
      simp only [List.getD_cons_succ] at hcell
      have := hc (i + 1) (by simp; omega) c (by simpa using hcell)
      simp only [List.length_cons] at this
      omega

theorem uniform_width {extra : Row} (h : ∀ c ∈ extra, c.colspan = 1) :
    rowWidth extra = extra.length := by
  induction extra with
  | nil => simp [rowWidth]
  | cons c cs ih =>
    simp only [rowWidth, List.map_cons, List.sum_cons, List.length_cons]
    rw [h c (List.mem_cons_self _ _)]
    have := ih fun c2 hc2 => h c2 (List.mem_cons_of_mem _ hc2)
    simp only [rowWidth] at this
    omega

theorem uniform_cover {extra : Row} {n dist : Nat}
    (h : ∀ c ∈ extra, c.rowspan = n) (hd : dist < n) :
    coverFrom extra dist = rowWidth extra := by
  induction extra with
  | nil => simp [coverFrom, rowWidth]
  | cons c cs ih =>
    simp only [coverFrom, rowWidth, List.filter_cons]
    rw [if_pos (by simp [h c (List.mem_cons_self _ _)]; omega)]
    simp only [List.map_cons, List.sum_cons]
    have := ih fun c2 hc2 => h c2 (List.mem_cons_of_mem _ hc2)
    simp only [coverFrom, rowWidth] at this
    omega

theorem singleRows_props {w : Nat} :
    ∀ (base : Grid),
      (∀ row ∈ base, ∃ c : Cell, row = [c] ∧ c.rowspan = 1 ∧ c.colspan = w) →
      containedGrid base ∧ ∀ i < base.length, effOcc base i = w := by
  intro base
  induction base with
  | nil =>
    intro _
    exact ⟨fun j hj => by simp at hj, fun i hi => by simp at hi⟩
  | cons row rest ih =>
    intro h
    obtain ⟨c, hrow, hrs, hcs⟩ := h row (List.mem_cons_self _ _)
    obtain ⟨hcr, her⟩ := ih fun r2 hr2 => h r2 (List.mem_cons_of_mem _ hr2)
    constructor
    · intro j hj cell hcell
      simp only [List.length_cons] at hj ⊢
      cases j with
      | zero =>
        simp only [List.getD_cons_zero, hrow, List.mem_singleton] at hcell
        subst hcell
        omega
      | succ i =>
        simp only [List.getD_cons_succ] at hcell
        have := hcr i (by omega) cell hcell
        omega
    · intro i hi
      cases i with
      | zero =>
        rw [effOcc_cons_zero, hrow]
        simp [rowWidth, hcs]
      | succ j =>
        rw [effOcc_cons_succ, coverFrom_zero (by
          intro c2 hc2
          rw [hrow, List.mem_singleton] at hc2
          subst hc2
          omega)]
        simp only [List.length_cons] at hi
        rw [her j (by omega)]
        omega

theorem wfr_wft {t : BackwardTree} (h : WFR t) : WFT t := by
  induction h with
  | mk a cs ing s d hch hing hnode hs hd ih =>
    exact WFT.mk a cs ing s d ih hing hs hd

theorem wft_size_pos {t : BackwardTree} (h : WFT t) : 1 ≤ t.size := by
  induction h with
  | mk a cs ing s d hch hing hs hd ih =>
    cases cs with
    | nil =>
      have hne : ing ≠ [] := hing rfl
      have hlen : 1 ≤ ing.length := List.length_pos.mpr hne
      simp only [if_pos rfl] at hs
      subst hs
      simpa [BackwardTree.size] using hlen
    | cons c cs' =>
      rw [if_neg (by simp : ¬(c :: cs' = []))] at hs
      have hc := ih c (List.mem_cons_self _ _)
      have hsum : c.size ≤ sumSizes (c :: cs') := by
        simp only [sumSizes, List.map_cons, List.sum_cons]
        omega
      subst hs
      simp only [BackwardTree.size]
      omega

theorem le_maxMd {c : BackwardTree} : ∀ {cs : List BackwardTree}, c ∈ cs →
    c.max_depth ≤ maxMd cs := by
  intro cs
  induction cs with
  | nil => intro h; simp at h
  | cons d ds ih =>
    intro h
    have hmax : maxMd (d :: ds) = max d.max_depth (maxMd ds) := by simp [maxMd]
    rcases List.mem_cons.mp h with h1 | h1
    · rw [h1, hmax]; exact le_max_left _ _
    · rw [hmax]
      exact le_trans (ih h1) (le_max_right _ _)

theorem wft_parts {t : BackwardTree} (h : WFT t) :
    (∀ c ∈ t.paths, WFT c) ∧ (t.paths = [] → t.ingredients ≠ []) ∧
    t.size = (if t.paths = [] then t.ingredients.length else sumSizes t.paths) ∧
    t.max_depth = t.actions.length + maxMd t.paths := by
  cases h with
  | mk a cs ing s d hch hing hs hd => exact ⟨hch, hing, hs, hd⟩

theorem wfr_parts {t : BackwardTree} (h : WFR t) :
    (∀ c ∈ t.paths, WFR c) ∧ (t.paths = [] → t.ingredients ≠ []) ∧
    (t.paths ≠ [] → t.ingredients = [] ∧ t.actions ≠ []) ∧
    t.size = (if t.paths = [] then t.ingredients.length else sumSizes t.paths) ∧
    t.max_depth = t.actions.length + maxMd t.paths := by
  cases h with
  | mk a cs ing s d hch hing hnode hs hd => exact ⟨hch, hing, hnode, hs, hd⟩

theorem mem_modifyHead_append {base : Grid} {extra row : Row}
    (h : row ∈ base.modifyHead (· ++ extra)) :
    (∃ r0 ∈ base, row = r0 ++ extra) ∨ row ∈ base := by
  cases base with
  | nil => simp [List.modifyHead] at h
  | cons r rest =>
    simp only [List.modifyHead] at h
    rcases List.mem_cons.mp h with h1 | h1
    · exact Or.inl ⟨r, List.mem_cons_self _ _, h1⟩
    · exact Or.inr (List.mem_cons_of_mem _ h1)

/-- Totality of the layout on well-formed trees laid out at sufficient
depth, together with positivity of all spans (core of claim C10). -/
theorem tableGo_total :
    ∀ (fuel : Nat) (ts : List BackwardTree) (depth : Nat),
      treeWeightL ts < fuel →
      (∀ t ∈ ts, WFT t) →
      (∀ t ∈ ts, t.max_depth ≤ depth) →
      ∃ gs, tableGo fuel ts depth = some gs ∧
        ∀ g ∈ gs, ∀ row ∈ g, ∀ c ∈ row, 1 ≤ c.rowspan ∧ 1 ≤ c.colspan := by
  intro fuel
  induction fuel with
  | zero => intro ts depth hw _ _; omega
  | succ fuel ih =>
    intro ts depth hw hwf hmd
    cases ts with
    | nil =>
      refine ⟨[], by simp [tableGo], ?_⟩
      intro g hg
      simp at hg
    | cons t ts2 =>
      have hwt := hwf t (List.mem_cons_self _ _)
      obtain ⟨hch, hing, hs, hd⟩ := wft_parts hwt
      have hmdt := hmd t (List.mem_cons_self _ _)
      have hale : t.actions.length ≤ depth := by omega
      have hwts : treeWeightL ts2 < fuel := by
        have : treeWeightL (t :: ts2) = treeWeight t + treeWeightL ts2 := rfl
        have hwt1 : 1 ≤ treeWeight t := by
          cases t with
          | mk a p i s2 d2 =>
            have heq : treeWeight (BackwardTree.mk a p i s2 d2) = 1 + treeWeightL p := rfl
            omega
        omega
      obtain ⟨gs2, hgs2, hsp2⟩ := ih ts2 depth hwts
        (fun t2 ht2 => hwf t2 (List.mem_cons_of_mem _ ht2))
        (fun t2 ht2 => hmd t2 (List.mem_cons_of_mem _ ht2))
      have hspos : 1 ≤ t.size := wft_size_pos hwt
      have hguard : ¬(t.ingredients ≠ [] ∧ depth < t.actions.length) := by
        intro hcon
        exact absurd hcon.2 (by omega)
      by_cases hp : t.paths = []
      · -- leaf
        have hingne : t.ingredients ≠ [] := hing hp
        by_cases ha : t.actions = []
        · refine ⟨(t.ingredients.map fun i =>
              [⟨1, depth - t.actions.length + 1, CellData.ingredient i⟩]) :: gs2, ?_, ?_⟩
          · simp only [tableGo, hgs2, if_pos hp, if_pos ha,
              if_neg hguard]
          · intro g hg row hrow c hc
            rcases List.mem_cons.mp hg with h1 | h1
            · subst h1
              obtain ⟨i, -, hrow2⟩ := List.mem_map.mp hrow
              rw [← hrow2] at hc
              rw [List.mem_singleton.mp hc]
              constructor <;> simp
            · exact hsp2 g h1 row hrow c hc
        · have hmapne : (t.ingredients.map fun i =>
              [(⟨1, depth - t.actions.length + 1, CellData.ingredient i⟩ : Cell)]) ≠ [] := by
            simp [hingne]
          refine ⟨((t.ingredients.map fun i =>
              [⟨1, depth - t.actions.length + 1, CellData.ingredient i⟩]).modifyHead
              (· ++ t.actions.map fun s => ⟨t.size, 1, CellData.step s⟩)) :: gs2, ?_, ?_⟩
          · simp only [tableGo, hgs2, if_pos hp, if_neg ha, if_neg hmapne,
              if_neg hguard]
          · intro g hg row hrow c hc
            rcases List.mem_cons.mp hg with h1 | h1
            · subst h1
              rcases mem_modifyHead_append hrow with ⟨r0, hr0, hreq⟩ | hrow2
              · subst hreq
                rcases List.mem_append.mp hc with h2 | h2
                · obtain ⟨i, -, hrow2⟩ := List.mem_map.mp hr0
                  rw [← hrow2] at h2
                  rw [List.mem_singleton.mp h2]
                  constructor <;> simp
                · obtain ⟨st, -, hcell⟩ := List.mem_map.mp h2
                  rw [← hcell]
                  exact ⟨hspos, le_refl _⟩
              · obtain ⟨i, -, hrow3⟩ := List.mem_map.mp hrow2
                rw [← hrow3] at hc
                rw [List.mem_singleton.mp hc]
                constructor <;> simp
            · exact hsp2 g h1 row hrow c hc
      · -- node with children
        have hwp : treeWeightL t.paths < fuel := by
          have h1 : treeWeightL (t :: ts2) = treeWeight t + treeWeightL ts2 := rfl
          have h2 : treeWeight t = 1 + treeWeightL t.paths := by
            cases t with
            | mk a p i s2 d2 => rfl
          omega
        have hmdc : ∀ c ∈ t.paths, c.max_depth ≤ depth - t.actions.length := by
          intro c hc
          have := le_maxMd hc
          omega
        obtain ⟨blocks, hblocks, hspb⟩ := ih t.paths (depth - t.actions.length) hwp hch hmdc
        have hnlt : ¬ depth < t.actions.length := by omega
        refine ⟨((t.ingredients.map fun i =>
            [⟨1, depth - t.actions.length + 1, CellData.ingredient i⟩]) ++
            (blocks.flatten.modifyHead (· ++
              (if t.actions = [] ∧ t.ingredients = []
               then [⟨t.size, 1, CellData.done⟩]
               else t.actions.map fun s => ⟨t.size, 1, CellData.step s⟩)))) :: gs2, ?_, ?_⟩
        · simp only [tableGo, hgs2, hblocks, if_neg hp,
            if_neg hguard, if_neg hnlt]
        · intro g hg row hrow c hc
          rcases List.mem_cons.mp hg with h1 | h1
          · subst h1
            rcases List.mem_append.mp hrow with h2 | h2
            · obtain ⟨i, -, hrow2⟩ := List.mem_map.mp h2
              rw [← hrow2] at hc
              rw [List.mem_singleton.mp hc]
              constructor <;> simp
            · rcases mem_modifyHead_append h2 with ⟨r0, hr0, hreq⟩ | hrow2
              · subst hreq
                rcases List.mem_append.mp hc with h3 | h3
                · obtain ⟨b, hb, hr0b⟩ := List.mem_flatten.mp hr0
                  exact hspb b hb r0 hr0b c h3
                · by_cases hcond : t.actions = [] ∧ t.ingredients = []
                  · rw [if_pos hcond] at h3
                    rw [List.mem_singleton.mp h3]
                    exact ⟨hspos, le_refl _⟩
                  · rw [if_neg hcond] at h3
                    obtain ⟨st, -, hcell⟩ := List.mem_map.mp h3
                    rw [← hcell]
                    exact ⟨hspos, le_refl _⟩
              · obtain ⟨b, hb, hrowb⟩ := List.mem_flatten.mp hrow2
                exact hspb b hb row hrowb c hc
          · exact hsp2 g h1 row hrow c hc

theorem blocks_facts {w : Nat} :
    ∀ {cs : List BackwardTree} {gs : List Grid},
      List.Forall₂ (fun (t : BackwardTree) (g : Grid) =>
        g.length = t.size ∧ containedGrid g ∧ ∀ i < g.length, effOcc g i = w) cs gs →
      gs.flatten.length = sumSizes cs ∧ containedGrid gs.flatten ∧
        ∀ i < gs.flatten.length, effOcc gs.flatten i = w := by
  intro cs gs h
  induction h with
  | nil =>
    refine ⟨by simp [sumSizes], fun j hj => by simp at hj, fun i hi => by simp at hi⟩
  | @cons a b l1 l2 hrel hrest ih =>
    obtain ⟨hlen, hcont, hocc⟩ := hrel
    obtain ⟨hlen2, hcont2, hocc2⟩ := ih
    rw [List.flatten_cons]
    refine ⟨?_, containedGrid_append hcont hcont2, ?_⟩
    · simp only [List.length_append, hlen, hlen2, sumSizes, List.map_cons, List.sum_cons]
    · intro i hi
      by_cases hil : i < b.length
      · rw [effOcc_append_left _ hil]
        exact hocc i hil
      · have hge := Nat.le_of_not_lt hil
        rw [effOcc_append_right _ hcont hge]
        refine hocc2 _ ?_
        simp only [List.length_append] at hi
        omega

/-- Rectangularity of the layout below the root: a list of strictly
well-formed trees laid out at depth `depth` yields, for each tree, a
grid with one row per `size`, contained rowspans, and every row's
effective occupancy equal to `depth + 1` (core of claim C2). -/
theorem tableGo_rect :
    ∀ (fuel : Nat) (ts : List BackwardTree) (depth : Nat),
      treeWeightL ts < fuel →
      (∀ t ∈ ts, WFR t) →
      (∀ t ∈ ts, t.max_depth ≤ depth) →
      ∃ gs, tableGo fuel ts depth = some gs ∧
        List.Forall₂ (fun (t : BackwardTree) (g : Grid) =>
          g.length = t.size ∧ containedGrid g ∧ ∀ i < g.length, effOcc g i = depth + 1)
          ts gs := by
  intro fuel
  induction fuel with
  | zero => intro ts depth hw _ _; omega
  | succ fuel ih =>
    intro ts depth hw hwf hmd
    cases ts with
    | nil => exact ⟨[], by simp [tableGo], List.Forall₂.nil⟩
    | cons t ts2 =>
      have hwt := hwf t (List.mem_cons_self _ _)
      obtain ⟨hch, hing, hnode, hs, hd⟩ := wfr_parts hwt
      have hmdt := hmd t (List.mem_cons_self _ _)
      have hale : t.actions.length ≤ depth := by omega
      have hwts : treeWeightL ts2 < fuel := by
        have heq : treeWeightL (t :: ts2) = treeWeight t + treeWeightL ts2 := rfl
        have hwt1 : 1 ≤ treeWeight t := by
          cases t with
          | mk a p i s2 d2 =>
            have heq2 : treeWeight (BackwardTree.mk a p i s2 d2) = 1 + treeWeightL p := rfl
            omega
        omega
      obtain ⟨gs2, hgs2, hfa2⟩ := ih ts2 depth hwts
        (fun t2 ht2 => hwf t2 (List.mem_cons_of_mem _ ht2))
        (fun t2 ht2 => hmd t2 (List.mem_cons_of_mem _ ht2))
      have hspos : 1 ≤ t.size := wft_size_pos (wfr_wft hwt)
      have hguard : ¬(t.ingredients ≠ [] ∧ depth < t.actions.length) := by
        intro hcon
        exact absurd hcon.2 (by omega)
      have hbase := singleRows_props (w := depth - t.actions.length + 1)
        (t.ingredients.map fun i =>
          [⟨1, depth - t.actions.length + 1, CellData.ingredient i⟩])
        (by
          intro row hrow
          obtain ⟨i, -, hrw⟩ := List.mem_map.mp hrow
          exact ⟨_, hrw.symm, rfl, rfl⟩)
      obtain ⟨hbc, hbo⟩ := hbase
      have hblen : (t.ingredients.map fun i =>
          [(⟨1, depth - t.actions.length + 1, CellData.ingredient i⟩ : Cell)]).length =
          t.ingredients.length := List.length_map _ _
      by_cases hp : t.paths = []
      · -- leaf
        have hingne : t.ingredients ≠ [] := hing hp
        have hsl : t.size = t.ingredients.length := by rwa [if_pos hp] at hs
        by_cases ha : t.actions = []
        · refine ⟨(t.ingredients.map fun i =>
              [⟨1, depth - t.actions.length + 1, CellData.ingredient i⟩]) :: gs2, ?_, ?_⟩
          · simp only [tableGo, hgs2, if_pos hp, if_pos ha, if_neg hguard]
          · refine List.Forall₂.cons ⟨by rw [hblen, hsl], hbc, ?_⟩ hfa2
            intro i hi
            rw [hbo i hi]
            have haz : t.actions.length = 0 := by simp [ha]
            omega
        · have hmapne : (t.ingredients.map fun i =>
              [(⟨1, depth - t.actions.length + 1, CellData.ingredient i⟩ : Cell)]) ≠ [] := by
            simp [hingne]
          refine ⟨((t.ingredients.map fun i =>
              [⟨1, depth - t.actions.length + 1, CellData.ingredient i⟩]).modifyHead
              (· ++ t.actions.map fun s => ⟨t.size, 1, CellData.step s⟩)) :: gs2, ?_, ?_⟩
          · simp only [tableGo, hgs2, if_pos hp, if_neg ha, if_neg hmapne, if_neg hguard]
          · have hext : ∀ c ∈ (t.actions.map fun s =>
                (⟨t.size, 1, CellData.step s⟩ : Cell)), c.rowspan = t.size ∧ c.colspan = 1 := by
              intro c hc
              obtain ⟨st, -, hcell⟩ := List.mem_map.mp hc
              rw [← hcell]
              exact ⟨rfl, rfl⟩
            have hextw : rowWidth (t.actions.map fun s =>
                (⟨t.size, 1, CellData.step s⟩ : Cell)) = t.actions.length := by
              rw [uniform_width (fun c hc => (hext c hc).2), List.length_map]
            refine List.Forall₂.cons ⟨?_, ?_, ?_⟩ hfa2
            · rw [modifyHead_append_length, hblen, hsl]
            · refine containedGrid_modifyHead hbc ?_
              intro c hc
              rw [(hext c hc).1, hblen, hsl]
            · intro i hi
              rw [modifyHead_append_length, hblen] at hi
              rw [effOcc_modifyHead _ _ hmapne i]
              rw [hbo i (by rw [hblen]; omega)]
              by_cases hiz : i = 0
              · rw [if_pos hiz, hextw]
                omega
              · rw [if_neg hiz, uniform_cover (fun c hc => (hext c hc).1)
                  (by omega), hextw]
                omega
      · -- node with children
        obtain ⟨hingr, hact⟩ := hnode hp
        have hsn : t.size = sumSizes t.paths := by rwa [if_neg hp] at hs
        have hwp : treeWeightL t.paths < fuel := by
          have h1 : treeWeightL (t :: ts2) = treeWeight t + treeWeightL ts2 := rfl
          have h2 : treeWeight t = 1 + treeWeightL t.paths := by
            cases t with
            | mk a p i s2 d2 => rfl
          omega
        have hmdc : ∀ c ∈ t.paths, c.max_depth ≤ depth - t.actions.length := by
          intro c hc
          have := le_maxMd hc
          omega
        obtain ⟨blocks, hblocks, hfab⟩ := ih t.paths (depth - t.actions.length) hwp hch hmdc
        obtain ⟨hfl, hfc, hfo⟩ := blocks_facts hfab
        have hnlt : ¬ depth < t.actions.length := by omega
        have hcond : ¬(t.actions = [] ∧ t.ingredients = []) := fun hcon => hact hcon.1
        have hflne : blocks.flatten ≠ [] := by
          intro hfn
          rw [hfn] at hfl
          simp only [List.length_nil] at hfl
          rw [hsn] at hspos
          omega
        have hext : ∀ c ∈ (t.actions.map fun s =>
            (⟨t.size, 1, CellData.step s⟩ : Cell)), c.rowspan = t.size ∧ c.colspan = 1 := by
          intro c hc
          obtain ⟨st, -, hcell⟩ := List.mem_map.mp hc
          rw [← hcell]
          exact ⟨rfl, rfl⟩
        have hextw : rowWidth (t.actions.map fun s =>
            (⟨t.size, 1, CellData.step s⟩ : Cell)) = t.actions.length := by
          rw [uniform_width (fun c hc => (hext c hc).2), List.length_map]
        refine ⟨((t.ingredients.map fun i =>
            [⟨1, depth - t.actions.length + 1, CellData.ingredient i⟩]) ++
            (blocks.flatten.modifyHead (· ++
              (if t.actions = [] ∧ t.ingredients = []
               then [⟨t.size, 1, CellData.done⟩]
               else t.actions.map fun s => ⟨t.size, 1, CellData.step s⟩)))) :: gs2, ?_, ?_⟩
        · simp only [tableGo, hgs2, hblocks, if_neg hp, if_neg hguard, if_neg hnlt]
        · rw [if_neg hcond, hingr]
          simp only [List.map_nil, List.nil_append]
          refine List.Forall₂.cons ⟨?_, ?_, ?_⟩ hfa2
          · rw [modifyHead_append_length, hfl, hsn]
          · refine containedGrid_modifyHead hfc ?_
            intro c hc
            rw [(hext c hc).1, hfl, hsn]
          · intro i hi
            rw [modifyHead_append_length, hfl] at hi
            rw [effOcc_modifyHead _ _ hflne i]
            rw [hfo i (by rw [hfl]; omega)]
            by_cases hiz : i = 0
            · rw [if_pos hiz, hextw]
              omega
            · rw [if_neg hiz, uniform_cover (fun c hc => (hext c hc).1)
                (by rw [hsn]; omega), hextw]
              omega

/-! ## Wrappers combining the pipeline stages -/

theorem treeWeight_pos (t : BackwardTree) : 1 ≤ treeWeight t := by
  cases t with
  | mk a p i s d =>
    have heq : treeWeight (BackwardTree.mk a p i s d) = 1 + treeWeightL p := rfl
    omega

theorem into_tree_wft {st : State} {r : Recipe} {an : Analysis} {t : BackwardTree}
    (h1 : from_recipe st r = some an) (hp : an.problems = [])
    (h2 : into_tree an = some (Except.ok t)) (hing : RecipeIngOk st r) :
    WFT t := by
  obtain ⟨hb, -, -⟩ := from_recipe_empty_problems h1 hp
  obtain ⟨-, paths, m, mf, nodes, s, d, hrem, hconv, ht⟩ := into_tree_ok_shape h2
  have hmapI : MapPathsOk PathIngOk an.map := buildAnalysis_pathIngOk hb hing
  have hne : EntriesNonempty an.map := buildAnalysis_entriesNonempty hb
  have hmem := mapRemove_self_mem hrem
  have hpathsI : ∀ p ∈ paths, PathIngOk p := fun p hpm => hmapI _ hmem p hpm
  have hpne : paths ≠ [] := hne _ hmem
  have hmI : MapPathsOk PathIngOk m := fun e he => hmapI e (mapRemove_mem hrem e he)
  have hmne : EntriesNonempty m := fun e he => hne e (mapRemove_mem hrem e he)
  have hwft := convStep_wft _ _ _ _ _ _ _ hconv hpathsI hmI hmne
  obtain ⟨-, hsum, hmax, hlen⟩ := convStep_inv _ _ _ _ _ _ _ hconv
  have hnne : nodes ≠ [] := by
    intro hq
    rw [hq] at hlen
    simp only [List.length_nil] at hlen
    exact hpne (List.length_eq_zero.mp hlen.symm)
  subst ht
  refine WFT.mk _ _ _ _ _ hwft (fun hq => absurd hq hnne) ?_ (by simp [hmax])
  rw [if_neg hnne]
  exact hsum

theorem into_tree_root_parts {st : State} {r : Recipe} {an : Analysis} {t : BackwardTree}
    (h1 : from_recipe st r = some an) (hp : an.problems = [])
    (h2 : into_tree an = some (Except.ok t)) (hing : RecipeIngOk st r)
    (hact : MapPathsOk PathActOk an.map) :
    t.actions = [] ∧ t.ingredients = [] ∧ t.paths ≠ [] ∧ (∀ c ∈ t.paths, WFR c) ∧
    t.size = sumSizes t.paths ∧ t.max_depth = maxMd t.paths := by
  obtain ⟨hb, -, -⟩ := from_recipe_empty_problems h1 hp
  obtain ⟨-, paths, m, mf, nodes, s, d, hrem, hconv, ht⟩ := into_tree_ok_shape h2
  have hmapI : MapPathsOk PathIngOk an.map := buildAnalysis_pathIngOk hb hing
  have hne : EntriesNonempty an.map := buildAnalysis_entriesNonempty hb
  have hmem := mapRemove_self_mem hrem
  have hpathsIA : ∀ p ∈ paths, PathIngOk p ∧ PathActOk p :=
    fun p hpm => ⟨hmapI _ hmem p hpm, hact _ hmem p hpm⟩
  have hpne : paths ≠ [] := hne _ hmem
  have hmI : MapPathsOk PathIngOk m := fun e he => hmapI e (mapRemove_mem hrem e he)
  have hmA : MapPathsOk PathActOk m := fun e he => hact e (mapRemove_mem hrem e he)
  have hmne : EntriesNonempty m := fun e he => hne e (mapRemove_mem hrem e he)
  have hwfr := convStep_wfr _ _ _ _ _ _ _ hconv hpathsIA hmI hmA hmne
  obtain ⟨-, hsum, hmax, hlen⟩ := convStep_inv _ _ _ _ _ _ _ hconv
  have hnne : nodes ≠ [] := by
    intro hq
    rw [hq] at hlen
    simp only [List.length_nil] at hlen
    exact hpne (List.length_eq_zero.mp hlen.symm)
  subst ht
  exact ⟨rfl, rfl, hnne, hwfr, hsum,
    by simp [BackwardTree.max_depth, BackwardTree.paths, hmax]⟩

/-- Layout totality on a whole well-formed tree (claim C10 core). -/
theorem to_table_total {t : BackwardTree} (h : WFT t) :
    ∃ g, to_table t t.max_depth = some g ∧
      ∀ row ∈ g, ∀ c ∈ row, 1 ≤ c.rowspan ∧ 1 ≤ c.colspan := by
  have hwl : treeWeightL [t] < treeWeight t + 1 := by
    have heq : treeWeightL [t] = treeWeight t + treeWeightL [] := rfl
    have heq2 : treeWeightL ([] : List BackwardTree) = 0 := rfl
    omega
  obtain ⟨gs, hgs, hsp⟩ := tableGo_total (treeWeight t + 1) [t] t.max_depth hwl
    (by intro t2 ht2; rw [List.mem_singleton.mp ht2]; exact h)
    (by intro t2 ht2; rw [List.mem_singleton.mp ht2])
  refine ⟨gs.flatten, ?_, ?_⟩
  · simp only [to_table, hgs]
  · intro row hrow c hc
    obtain ⟨g, hgm, hrg⟩ := List.mem_flatten.mp hrow
    exact hsp g hgm row hrg c hc

/-- Layout of a root-shaped tree: every row of the resulting grid
occupies exactly `max_depth + 2` columns (core of the amended claim C2). -/
theorem to_table_root_rect {t : BackwardTree}
    (ha : t.actions = []) (hi : t.ingredients = []) (hpne : t.paths ≠ [])
    (hch : ∀ c ∈ t.paths, WFR c) (hs : t.size = sumSizes t.paths)
    (hd : t.max_depth = maxMd t.paths) :
    ∃ g, to_table t t.max_depth = some g ∧ g.length = t.size ∧ 0 < g.length ∧
      ∀ i < g.length, effOcc g i = t.max_depth + 2 := by
  have hwteq : treeWeight t = 1 + treeWeightL t.paths := by
    cases t with
    | mk a p i s d => rfl
  have hspos : 1 ≤ t.size := by
    rw [hs]
    cases hq : t.paths with
    | nil => exact absurd hq hpne
    | cons c cs =>
      have hcw : 1 ≤ c.size := wft_size_pos (wfr_wft (hch c (hq ▸ List.mem_cons_self _ _)))
      have : sumSizes (c :: cs) = c.size + sumSizes cs := by
        simp [sumSizes]
      omega
  have hmdc : ∀ c ∈ t.paths, c.max_depth ≤ t.max_depth - t.actions.length := by
    intro c hc
    have h1 := le_maxMd hc
    rw [ha]
    simp only [List.length_nil, Nat.sub_zero]
    omega
  have hwp : treeWeightL t.paths < treeWeight t := by omega
  obtain ⟨blocks, hblocks, hfab⟩ :=
    tableGo_rect (treeWeight t) t.paths (t.max_depth - t.actions.length) hwp hch hmdc
  obtain ⟨hfl, hfc, hfo⟩ := blocks_facts hfab
  have hdeq : t.max_depth - t.actions.length = t.max_depth := by
    rw [ha]
    simp
  have hflne : blocks.flatten ≠ [] := by
    intro hfn
    rw [hfn] at hfl
    simp only [List.length_nil] at hfl
    rw [← hs] at hfl
    omega
  have hcond : t.actions = [] ∧ t.ingredients = [] := ⟨ha, hi⟩
  have hguard : ¬(t.ingredients ≠ [] ∧ t.max_depth < t.actions.length) := by
    intro hcon
    exact absurd hi hcon.1
  have hnlt : ¬ t.max_depth < t.actions.length := by
    rw [ha]
    simp
  obtain ⟨f, hf⟩ : ∃ f, treeWeight t = f + 1 := by
    have := treeWeight_pos t
    exact ⟨treeWeight t - 1, by omega⟩
  have hnil : tableGo (treeWeight t) [] t.max_depth = some [] := by
    rw [hf]
    simp [tableGo]
  have hmain : tableGo (treeWeight t + 1) [t] t.max_depth =
      some [(t.ingredients.map fun i =>
        [⟨1, t.max_depth - t.actions.length + 1, CellData.ingredient i⟩]) ++
        (blocks.flatten.modifyHead (· ++ [⟨t.size, 1, CellData.done⟩]))] := by
    simp only [tableGo, if_neg hguard, if_neg hpne, if_neg hnlt, hblocks, if_pos hcond, hnil]
  refine ⟨(t.ingredients.map fun i =>
      [⟨1, t.max_depth - t.actions.length + 1, CellData.ingredient i⟩]) ++
      (blocks.flatten.modifyHead (· ++ [⟨t.size, 1, CellData.done⟩])), ?_, ?_, ?_, ?_⟩
  · simp only [to_table, hmain, List.flatten_cons, List.flatten_nil, List.append_nil]
  · rw [hi]
    simp only [List.map_nil, List.nil_append, modifyHead_append_length, hfl, hs]
  · rw [hi]
    simp only [List.map_nil, List.nil_append, modifyHead_append_length, hfl, ← hs]
    omega
  · rw [hi]
    simp only [List.map_nil, List.nil_append]
    intro i hi2
    rw [modifyHead_append_length, hfl] at hi2
    rw [effOcc_modifyHead _ _ hflne i]
    rw [hfo i (by rw [hfl]; omega), hdeq]
    have hone : rowWidth [(⟨t.size, 1, CellData.done⟩ : Cell)] = 1 := by
      simp [rowWidth]
    by_cases hiz : i = 0
    · rw [if_pos hiz, hone]
    · rw [if_neg hiz, uniform_cover ?uc (show i < t.size by rw [hs]; omega), hone]
      case uc =>
        intro c hc
        rw [List.mem_singleton.mp hc]

theorem refsExt_pos_exists {m : AnalysisMap} {s : Sym} :
    ∀ {vs : List Sym}, 1 ≤ refsExt m vs s → ∃ y ∈ vs, 1 ≤ (succList m y).count s := by
  intro vs
  induction vs with
  | nil => intro h; simp [refsExt] at h
  | cons y ys ih =>
    intro h
    rw [refsExt_cons] at h
    by_cases hy : 1 ≤ (succList m y).count s
    · exact ⟨y, List.mem_cons_self _ _, hy⟩
    · obtain ⟨y2, hy2, hc2⟩ := ih (by omega)
      exact ⟨y2, List.mem_cons_of_mem _ hy2, hc2⟩

/-- In the layout of a childless node, every emitted action cell spans
`rowspan = size` rows and one column (core of the amended claim C6). -/
theorem leaf_step_cells {t : BackwardTree} {depth : Nat} {g : Grid}
    (hleaf : t.paths = []) (h : to_table t depth = some g) :
    ∀ row ∈ g, ∀ c ∈ row, ∀ s0 : ActionStep,
      c.contents = CellData.step s0 → c.rowspan = t.size ∧ c.colspan = 1 := by
  obtain ⟨f, hf⟩ : ∃ f, treeWeight t = f + 1 := by
    have := treeWeight_pos t
    exact ⟨treeWeight t - 1, by omega⟩
  have hnil : tableGo (treeWeight t) [] depth = some [] := by
    rw [hf]
    simp [tableGo]
  by_cases hgc : t.ingredients ≠ [] ∧ depth < t.actions.length
  · have hmain : tableGo (treeWeight t + 1) [t] depth = none := by
      simp only [tableGo, if_pos hgc]
    rw [to_table, hmain] at h
    exact absurd h (by simp)
  · by_cases ha : t.actions = []
    · have hmain : tableGo (treeWeight t + 1) [t] depth =
          some [t.ingredients.map fun i =>
            [⟨1, depth - t.actions.length + 1, CellData.ingredient i⟩]] := by
        simp only [tableGo, if_neg hgc, if_pos hleaf, if_pos ha, hnil]
      rw [to_table, hmain] at h
      simp only [List.flatten_cons, List.flatten_nil, List.append_nil,
        Option.some.injEq] at h
      subst h
      intro row hrow c hc s0 hcont
      obtain ⟨i, -, hrw⟩ := List.mem_map.mp hrow
      rw [← hrw] at hc
      rw [List.mem_singleton.mp hc] at hcont
      exact absurd hcont (by simp)
    · by_cases hir : (t.ingredients.map fun i =>
          [(⟨1, depth - t.actions.length + 1, CellData.ingredient i⟩ : Cell)]) = []
      · have hmain : tableGo (treeWeight t + 1) [t] depth = none := by
          simp only [tableGo, if_neg hgc, if_pos hleaf, if_neg ha, if_pos hir]
        rw [to_table, hmain] at h
        exact absurd h (by simp)
      · have hmain : tableGo (treeWeight t + 1) [t] depth =
            some [(t.ingredients.map fun i =>
              [⟨1, depth - t.actions.length + 1, CellData.ingredient i⟩]).modifyHead
              (· ++ t.actions.map fun s => ⟨t.size, 1, CellData.step s⟩)] := by
          simp only [tableGo, if_neg hgc, if_pos hleaf, if_neg ha, if_neg hir, hnil]
        rw [to_table, hmain] at h
        simp only [List.flatten_cons, List.flatten_nil, List.append_nil,
          Option.some.injEq] at h
        subst h
        intro row hrow c hc s0 hcont
        rcases mem_modifyHead_append hrow with ⟨r0, hr0, hreq⟩ | hrow2
        · subst hreq
          rcases List.mem_append.mp hc with h2 | h2
          · obtain ⟨i, -, hrw⟩ := List.mem_map.mp hr0
            rw [← hrw] at h2
            rw [List.mem_singleton.mp h2] at hcont
            exact absurd hcont (by simp)
          · obtain ⟨st, -, hcell⟩ := List.mem_map.mp h2
            rw [← hcell]
            exact ⟨rfl, rfl⟩
        · obtain ⟨i, -, hrw⟩ := List.mem_map.mp hrow2
          rw [← hrw] at hc
          rw [List.mem_singleton.mp hc] at hcont
          exact absurd hcont (by simp)

/-- The concrete join recipe satisfies the parser guarantee on
ingredient lists. -/
theorem recipeIngOk_stJ : RecipeIngOk stJ rJ := by
  intro rr hrr rule hget l hinp
  simp only [rJ] at hrr
  fin_cases hrr <;> simp_all [stJ] <;> subst hget <;>
    first
      | exact Input.noConfusion hinp
      | (injection hinp with h2; subst h2; simp)

/-- Every join-started path segment of the concrete join analysis has a
non-empty action chain. -/
theorem mapPathsOk_anJ : MapPathsOk PathActOk anJ.map := by
  intro e he p hp
  simp only [anJ, List.mem_cons, List.not_mem_nil, or_false] at he
  rcases he with rfl | rfl
  · simp only [List.mem_cons, List.not_mem_nil, or_false] at hp
    rcases hp with rfl | rfl <;> simp [PathActOk]
  · simp only [List.mem_cons, List.not_mem_nil, or_false] at hp
    subst hp
    simp [PathActOk]

/-! ## The claims -/

/-- Claim C1 (code bug): the spec says `Analysis::from_recipe` never
fails, even for recipes that reference a join point no rule ever feeds;
but on the one-rule recipe `$a -> <>` the DFS in `find_cycles` indexes
`self.map[&Some(a)]` with a key that is absent and panics, modelled here
by `from_recipe` returning `none`. -/
theorem claim_c1_analyzer_crash : from_recipe stC1 rC1 = none := rfl

/-- Claim C2 counterexample: for the recipe `a -> f -> <>` the pipeline
succeeds, the tree has `max_depth = 1`, and the single row of the laid
out grid occupies 3 = `max_depth + 2` columns, not `max_depth + 1` —
the root's sink (`Done`) cell adds one extra column. -/
theorem claim_c2_counterexample :
    from_recipe stA rA = some anA ∧ into_tree anA = some (Except.ok treeA) ∧
    Table.new treeA = some gridA ∧ treeA.max_depth = 1 ∧ gridA.length = 1 ∧
    effOcc gridA 0 = 3 ∧ (3 : Nat) ≠ treeA.max_depth + 1 :=
  ⟨rfl, rfl, rfl, rfl, rfl, rfl, by decide⟩

/-- Claim C2 (amended): for every tree built by a successful `into_tree`
from a recipe whose ingredient lists are non-empty and in which no
join-started path segment has an empty action chain, the grid produced
by `Table::new` (layout at `depth = max_depth`) is rectangular with
every row's effective occupancy equal to `tree.max_depth + 2`. -/
theorem claim_c2_rectangular {st : State} {r : Recipe} {an : Analysis} {t : BackwardTree}
    (h1 : from_recipe st r = some an) (hp : an.problems = [])
    (h2 : into_tree an = some (Except.ok t))
    (hing : RecipeIngOk st r) (hact : MapPathsOk PathActOk an.map) :
    ∃ g, Table.new t = some g ∧ 0 < g.length ∧ g.length = t.size ∧
      ∀ i < g.length, effOcc g i = t.max_depth + 2 := by
  obtain ⟨ha, hi, hpne, hch, hs, hd⟩ := into_tree_root_parts h1 hp h2 hing hact
  obtain ⟨g, hg, hlen, hpos, hocc⟩ := to_table_root_rect ha hi hpne hch hs hd
  exact ⟨g, hg, hpos, hlen, hocc⟩

/-- Claim C2 witness: the amended rectangularity at the concrete recipe
`a -> step1 -> $j; b -> step2 -> $j; $j -> step3 -> <>`. -/
theorem claim_c2_witness :
    from_recipe stJ rJ = some anJ ∧ anJ.problems = [] ∧
    into_tree anJ = some (Except.ok treeJ) ∧ RecipeIngOk stJ rJ ∧
    MapPathsOk PathActOk anJ.map ∧
    ∃ g, Table.new treeJ = some g ∧ 0 < g.length ∧ g.length = treeJ.size ∧
      ∀ i < g.length, effOcc g i = treeJ.max_depth + 2 :=
  ⟨rfl, rfl, rfl, recipeIngOk_stJ, mapPathsOk_anJ,
    @claim_c2_rectangular stJ rJ anJ treeJ rfl rfl rfl recipeIngOk_stJ mapPathsOk_anJ⟩

/-- Claim C3: whenever the accumulated problem list is non-empty,
`into_tree` fails with exactly that list, verbatim, building nothing. -/
theorem claim_c3_error_propagation (an : Analysis) (h : an.problems ≠ []) :
    into_tree an = some (Except.error an.problems) := by
  simp [into_tree, h]

/-- Claim C3 witness at a concrete analysis with one problem. -/
theorem claim_c3_witness :
    (Analysis.mk [] [Problem.noDone]).problems ≠ [] ∧
    into_tree (Analysis.mk [] [Problem.noDone]) =
      some (Except.error (Analysis.mk [] [Problem.noDone]).problems) :=
  ⟨by simp, claim_c3_error_propagation _ (by simp)⟩

/-- Claim C4 counterexample: the recipe
`$a -> f -> $a; $a -> g -> <>; $c -> h -> <>` contains a genuine cycle
among join points reachable from the sink, yet `from_recipe` panics on
the never-fed join point `$c` (modelled by `none`) before recording any
`Cycle` problem, so the claim as stated fails. -/
theorem claim_c4_counterexample :
    buildAnalysis stCy rCy = some anCy ∧ CycleReachable anCy.map ∧
    from_recipe stCy rCy = none :=
  ⟨rfl,
   ⟨0, ⟨0, by decide, Relation.ReflTransGen.refl⟩,
     Relation.TransGen.single (by unfold Rel; decide)⟩,
   rfl⟩

/-- Claim C4 (amended): for every recipe containing a reference cycle
among join points reachable from the sink, provided additionally that
every join point reachable from the sink is fed by at least one rule,
`Analysis::from_recipe` records at least one `Cycle` problem and
`into_tree` on that analysis fails with the problem list. -/
theorem claim_c4_cycle_detected {st : State} {r : Recipe} {A : Analysis}
    (hb : buildAnalysis st r = some A) (hcyc : CycleReachable A.map)
    (hkeys : KeysPresent A.map) :
    ∃ an s, from_recipe st r = some an ∧ Problem.hasCycle s ∈ an.problems ∧
      an.problems ≠ [] ∧ into_tree an = some (Except.error an.problems) := by
  have hlnone : mapLookup A.map none ≠ none := by
    obtain ⟨x, ⟨rt, hrt, -⟩, -⟩ := hcyc
    exact rootsOf_lookup hrt
  obtain ⟨s, hfound⟩ := cycleLoop_result_found hcyc hkeys
  have hne : A.problems ++ [Problem.hasCycle s] ≠ [] := by simp
  refine ⟨{ A with problems := A.problems ++ [.hasCycle s] }, s, ?_, by simp, hne, ?_⟩
  · simp only [from_recipe, hb, if_neg hlnone, find_cycles, hfound]
  · simp [into_tree, hne]

/-- Claim C4 witness: the amended statement at the concrete recipe
`x -> f -> $a; $a -> g -> $a; $a -> h -> <>`, whose only reachable join
point is fed. -/
theorem claim_c4_witness :
    buildAnalysis stCw rCw = some anCw ∧ CycleReachable anCw.map ∧
    KeysPresent anCw.map ∧
    ∃ an s, from_recipe stCw rCw = some an ∧ Problem.hasCycle s ∈ an.problems ∧
      an.problems ≠ [] ∧ into_tree an = some (Except.error an.problems) := by
  have hcyc : CycleReachable anCw.map :=
    ⟨0, ⟨0, by decide, Relation.ReflTransGen.refl⟩,
      Relation.TransGen.single (by unfold Rel; decide)⟩
  have honly : ∀ x, ReachableFromSink anCw.map x → x = 0 := by
    rintro x ⟨rt, hrt, hpath⟩
    have hroots : rootsOf anCw.map = [0] := rfl
    rw [hroots] at hrt
    obtain rfl := List.mem_singleton.mp hrt
    induction hpath with
    | refl => rfl
    | tail hpre hstep ih =>
      rw [ih] at hstep
      have hsucc : succList anCw.map 0 = [0] := rfl
      unfold Rel at hstep
      rw [hsucc] at hstep
      exact List.mem_singleton.mp hstep
  have hkeys : KeysPresent anCw.map := by
    intro x hx
    rw [honly x hx]
    decide
  exact ⟨rfl, hcyc, hkeys, @claim_c4_cycle_detected stCw rCw anCw rfl hcyc hkeys⟩

/-- Claim C5 counterexample: the acyclic diamond
`a -> f -> $x; $x -> g -> <>; $x -> h -> <>` has no join point reachable
from itself, yet analysis records `Cycle(x)` — the shared visited set of
the DFS flags any join point referenced along two distinct paths from
the sink. -/
theorem claim_c5_counterexample :
    from_recipe stD rD = some anD ∧ Problem.hasCycle 3 ∈ anD.problems ∧
    ¬ CycleReachable anD.map := by
  refine ⟨rfl, by decide, ?_⟩
  rintro ⟨x, -, htg⟩
  have hnorel : ∀ u v : Sym, ¬ Rel anD.map u v := by
    intro u v hr
    unfold Rel succList at hr
    by_cases hu : u = 3
    · subst hu
      simp [anD, mapLookup, joinStarts] at hr
    · have hlk : mapLookup anD.map (some u) = none := by
        simp [anD, mapLookup, hu]
      rw [hlk] at hr
      simp [joinStarts] at hr
  cases htg with
  | single hstep => exact hnorel _ _ hstep
  | tail htg2 hstep => exact hnorel _ _ hstep

/-- Claim C5 (amended): a `Cycle(s)` problem is recorded exactly when
the DFS walk pops `s` a second time; this means `s` is reachable from
the sink and is referenced at least twice in total — once more than the
single reference an acyclic tree-shaped recipe would have — from the
sink entry and from entries of join points reachable from the sink.
Genuine cycles satisfy this, but so do acyclic diamonds. -/
theorem claim_c5_double_reference {st : State} {r : Recipe} {an : Analysis} {s : Sym}
    (h : from_recipe st r = some an) (hs : Problem.hasCycle s ∈ an.problems) :
    ReachableFromSink an.map s ∧
    ∃ vs : List Sym, vs.Nodup ∧ (∀ y ∈ vs, ReachableFromSink an.map y) ∧
      2 ≤ (rootsOf an.map).count s + refsExt an.map vs s := by
  have hfound := from_recipe_hasCycle h hs
  obtain ⟨vs, -, hnd, hreach, hcnt⟩ := cycleLoop_found _ _ _ _ _ hfound
  rw [if_neg (by simp), List.count_reverse] at hcnt
  have hreach2 : ∀ y ∈ vs, ReachableFromSink an.map y := by
    intro y hy
    obtain ⟨rt, hrt, hpath⟩ := hreach y hy
    exact ⟨rt, List.mem_reverse.mp hrt, hpath⟩
  refine ⟨?_, vs, hnd, hreach2, by omega⟩
  by_cases hroot : 1 ≤ (rootsOf an.map).count s
  · exact ⟨s, List.count_pos_iff.mp (by omega), Relation.ReflTransGen.refl⟩
  · have href : 1 ≤ refsExt an.map vs s := by omega
    obtain ⟨y, hy, hc⟩ := refsExt_pos_exists href
    obtain ⟨rt, hrt, hpath⟩ := hreach2 y hy
    refine ⟨rt, hrt, Relation.ReflTransGen.tail hpath ?_⟩
    exact List.count_pos_iff.mp (by omega)

/-- Claim C5 witness: the amended statement at the diamond recipe. -/
theorem claim_c5_witness :
    from_recipe stD rD = some anD ∧ Problem.hasCycle 3 ∈ anD.problems ∧
    (ReachableFromSink anD.map 3 ∧
      ∃ vs : List Sym, vs.Nodup ∧ (∀ y ∈ vs, ReachableFromSink anD.map y) ∧
        2 ≤ (rootsOf anD.map).count 3 + refsExt anD.map vs 3) :=
  ⟨rfl, by decide, @claim_c5_double_reference stD rD anD 3 rfl (by decide)⟩

/-- Claim C6 counterexample: for `a + b -> f -> <>` the leaf has two
ingredients and its action cell `f` is emitted with `row_span = 2`
(the leaf's `size`), not `row_span = 1` as claimed. -/
theorem claim_c6_counterexample :
    from_recipe stAB rAB = some anAB ∧ into_tree anAB = some (Except.ok treeAB) ∧
    treeAB.paths = [leafAB] ∧ leafAB.paths = [] ∧ leafAB.ingredients.length = 2 ∧
    Table.new treeAB = some gridAB ∧
    ((gridAB.getD 0 []).getD 1 ⟨0, 0, .done⟩).contents = CellData.step (astep 10) ∧
    ((gridAB.getD 0 []).getD 1 ⟨0, 0, .done⟩).rowspan = 2 ∧ (2 : Nat) ≠ 1 :=
  ⟨rfl, rfl, rfl, rfl, rfl, rfl, rfl, rfl, by decide⟩

/-- Claim C6 (amended): when a childless node is laid out, its own
action steps are appended as cells of the node's first row, each with
`col_span = 1` and `row_span = size` — the leaf's ingredient count — so
they span all of the leaf's ingredient rows (`row_span = 1` exactly when
the leaf has a single ingredient). -/
theorem claim_c6_leaf_action_spans {t : BackwardTree} {depth : Nat} {g : Grid}
    (hleaf : t.paths = []) (h : to_table t depth = some g) :
    ∀ row ∈ g, ∀ c ∈ row, ∀ s0 : ActionStep,
      c.contents = CellData.step s0 → c.rowspan = t.size ∧ c.colspan = 1 :=
  leaf_step_cells hleaf h

/-- Claim C6 witness: the two-ingredient leaf laid out at depth 1. -/
theorem claim_c6_witness :
    leafAB.paths = [] ∧ to_table leafAB 1 = some gridLeafAB ∧
    ∀ row ∈ gridLeafAB, ∀ c ∈ row, ∀ s0 : ActionStep,
      c.contents = CellData.step s0 → c.rowspan = leafAB.size ∧ c.colspan = 1 :=
  ⟨rfl, rfl, @claim_c6_leaf_action_spans leafAB 1 gridLeafAB rfl rfl⟩

/-- Claim C7: every node of a successfully materialized tree satisfies
the metric invariants — `size` is the ingredient count for a childless
node and the sum of the children's sizes otherwise, and `max_depth` is
the node's own action count plus the maximum of the children's
`max_depth` (0 with no children). -/
theorem claim_c7_metrics {an : Analysis} {t : BackwardTree}
    (h : into_tree an = some (Except.ok t)) : TreeInv t :=
  into_tree_treeInv h

/-- Claim C7 witness at the concrete join recipe. -/
theorem claim_c7_witness :
    into_tree anJ = some (Except.ok treeJ) ∧ TreeInv treeJ :=
  ⟨rfl, @claim_c7_metrics anJ treeJ rfl⟩

/-- Claim C8 counterexample: for `a + b -> f -> <>` the recipe has
exactly one ingredient-led path segment, but the root's `size` is 2 —
`size` counts ingredient references, not ingredient-led paths. -/
theorem claim_c8_counterexample :
    from_recipe stAB rAB = some anAB ∧ anAB.problems = [] ∧
    into_tree anAB = some (Except.ok treeAB) ∧
    treeAB.size = 2 ∧ specIngredientLedPathCount stAB rAB = 1 ∧ (2 : Nat) ≠ 1 :=
  ⟨rfl, rfl, rfl, rfl, rfl, by decide⟩

/-- Claim C8 (amended): for every successfully materialized tree, the
root's `size` equals the total number of ingredient references on the
tree's leaves, i.e. the ingredient references of the ingredient-led
path segments the materializer actually consumed (those reachable from
the sink). -/
theorem claim_c8_root_size {an : Analysis} {t : BackwardTree}
    (h : into_tree an = some (Except.ok t)) : LeafSum t t.size :=
  treeInv_leafSum (into_tree_treeInv h)

/-- Claim C8 witness at the concrete join recipe. -/
theorem claim_c8_witness :
    into_tree anJ = some (Except.ok treeJ) ∧ LeafSum treeJ treeJ.size :=
  ⟨rfl, @claim_c8_root_size anJ treeJ rfl⟩

/-- Claim C9: if `from_recipe` returned an analysis (no panic) and its
problem list is empty, the materialization in `into_tree` terminates and
every map removal succeeds — no `unwrap` can fail — so a tree is
returned. -/
theorem claim_c9_materializer_total {st : State} {r : Recipe} {an : Analysis}
    (h : from_recipe st r = some an) (hp : an.problems = []) :
    ∃ t, into_tree an = some (Except.ok t) :=
  into_tree_succeeds h hp

/-- Claim C9 witness at the concrete join recipe. -/
theorem claim_c9_witness :
    from_recipe stJ rJ = some anJ ∧ anJ.problems = [] ∧
    ∃ t, into_tree anJ = some (Except.ok t) :=
  ⟨rfl, rfl, @claim_c9_materializer_total stJ rJ anJ rfl rfl⟩

/-- Claim C10: for a tree obtained from a successful `into_tree` of a
recipe whose ingredient lists are all non-empty (the parser guarantee),
the layout `Table::new` (i.e. `to_table` at `depth = max_depth`) is
total — no usize underflow, no out-of-bounds `vec[0]` — and every
emitted cell has `rowspan ≥ 1` and `colspan ≥ 1`. -/
theorem claim_c10_layout_total {st : State} {r : Recipe} {an : Analysis} {t : BackwardTree}
    (h1 : from_recipe st r = some an) (hp : an.problems = [])
    (h2 : into_tree an = some (Except.ok t)) (hing : RecipeIngOk st r) :
    ∃ g, Table.new t = some g ∧
      ∀ row ∈ g, ∀ c ∈ row, 1 ≤ c.rowspan ∧ 1 ≤ c.colspan :=
  to_table_total (into_tree_wft h1 hp h2 hing)

/-- Claim C10 witness at the concrete join recipe. -/
theorem claim_c10_witness :
    from_recipe stJ rJ = some anJ ∧ anJ.problems = [] ∧
    into_tree anJ = some (Except.ok treeJ) ∧ RecipeIngOk stJ rJ ∧
    ∃ g, Table.new treeJ = some g ∧
      ∀ row ∈ g, ∀ c ∈ row, 1 ≤ c.rowspan ∧ 1 ≤ c.colspan :=
  ⟨rfl, rfl, rfl, recipeIngOk_stJ,
    @claim_c10_layout_total stJ rJ anJ treeJ rfl rfl rfl recipeIngOk_stJ⟩

end Apicius
